import Mathlib

/-!
Verification development for the grid / entity model and the pathfinding
algorithms of the AI pathfinding project (src/main.js, modern module copy).

Modelling conventions, justified against the JavaScript source:

* JavaScript maps in this program are keyed by the canonical coordinate
  string produced by Coordinates.toString, which renders the integer pair
  as the text of x, a comma, and the text of y.  Integer rendering never
  contains a comma, so that key is in bijection with the pair (x, y); we
  therefore key all maps directly by the Coordinates value.  The memoising
  parser createCoordinatesFromString inverts the key and is the identity
  under this representation.
* Numbers are IEEE doubles in the source.  The distance bookkeeping is
  generic over a linearly ordered ring: with the default constant-zero
  heuristic every value it manipulates is a small integer, which doubles
  carry exactly, so those call sites instantiate ℤ (plus an explicit
  Infinity, modelled by WithTop); the A* heuristic and the proximity check
  use the Euclidean magnitude, modelled over ℝ with the exact square
  root.
* The canvas renderer (drawTile), the DOM and the UI selector fields
  (pathfindingAlgorithm, entityToSet, canvasGrid) are external
  collaborators that the modelled operations never read; they are omitted.
* Thrown exceptions (fail) are modelled with Except.
* The unbounded JavaScript recursions and while loops are given explicit
  fuel; each fuel budget is provably sufficient, which is established by
  the lemmas below rather than assumed.
-/

inductive Direction where
  | up
  | down
  | left
  | right
deriving DecidableEq, Repr

/-- Entity kinds stored in the occupancy mapping; the source uses the string
literals with these names. -/
inductive EntityKind where
  | empty
  | wall
  | agent
  | destination
  | enemy
  | navigated
deriving DecidableEq, Repr

/-- Immutable integer point, from class Coordinates. -/
structure Coordinates where
  x : ℤ
  y : ℤ
deriving DecidableEq, Repr

/-- Coordinates.getNeighbours: the four orthogonal neighbours in the fixed
order up, left, right, down, with the four diagonals appended after when
requested.  No bounds checking, exactly as in the source. -/
def Coordinates.getNeighbours (c : Coordinates) (getDiagonals : Bool) : List Coordinates :=
  [⟨c.x, c.y - 1⟩, ⟨c.x - 1, c.y⟩, ⟨c.x + 1, c.y⟩, ⟨c.x, c.y + 1⟩] ++
    (if getDiagonals then
      [⟨c.x - 1, c.y - 1⟩, ⟨c.x + 1, c.y - 1⟩, ⟨c.x - 1, c.y + 1⟩, ⟨c.x + 1, c.y + 1⟩]
    else [])

/-- Coordinates.difference: componentwise absolute difference. -/
def Coordinates.difference (c other : Coordinates) : Coordinates :=
  ⟨|c.x - other.x|, |c.y - other.y|⟩

/-- Coordinates.magnitude: Math.sqrt(x*x + y*y), over ℝ. -/
noncomputable def Coordinates.magnitude (c : Coordinates) : ℝ :=
  Real.sqrt ((c.x * c.x + c.y * c.y : ℤ) : ℝ)

/-- Coordinates.withinProximity. -/
noncomputable def Coordinates.withinProximity (c : Coordinates) (radius : ℝ)
    (xy : Coordinates) : Prop :=
  (c.difference xy).magnitude ≤ radius

/-- Coordinates.move.  The source fails on an unrecognised direction string;
the Direction type makes every argument recognised. -/
def Coordinates.move (c : Coordinates) : Direction → Coordinates
  | Direction.left => ⟨c.x - 1, c.y⟩
  | Direction.right => ⟨c.x + 1, c.y⟩
  | Direction.up => ⟨c.x, c.y - 1⟩
  | Direction.down => ⟨c.x, c.y + 1⟩

/-- The entity mapping: a JavaScript Map from coordinate keys to stored
values.  A stored value of none models a stored undefined (which Map.set
happily records, and which Map.has reports as present); absence of the key
models absence from the Map. -/
abbrev EntityMap := List (Coordinates × Option EntityKind)

/-- Map.prototype.get on the raw entry: some v when the key is present with
stored value v, none when absent. -/
def mapGet : EntityMap → Coordinates → Option (Option EntityKind)
  | [], _ => none
  | (k0, v0) :: rest, k => if k0 = k then some v0 else mapGet rest k

/-- Map.prototype.has. -/
def mapHas (m : EntityMap) (k : Coordinates) : Bool :=
  (mapGet m k).isSome

/-- Map.prototype.set: replaces the entry in place when the key is present,
appends otherwise (JavaScript Maps preserve insertion order). -/
def mapSet : EntityMap → Coordinates → Option EntityKind → EntityMap
  | [], k, v => [(k, v)]
  | (k0, v0) :: rest, k, v =>
    if k0 = k then (k, v) :: rest else (k0, v0) :: mapSet rest k v

/-- Map.prototype.delete (ignoring the returned boolean, which the source
never reads). -/
def mapDelete : EntityMap → Coordinates → EntityMap
  | [], _ => []
  | (k0, v0) :: rest, k => if k0 = k then rest else (k0, v0) :: mapDelete rest k

/-- The value an expression like entities.get(key) yields in the source:
undefined both when the key is absent and when undefined was stored. -/
def jsGet (m : EntityMap) (k : Coordinates) : Option EntityKind :=
  (mapGet m k).join

/-- Errors raised through fail in the parts of the source modelled here. -/
inductive AreaError where
  | occupancyConflict
deriving DecidableEq, Repr

/-- The Area grid and entity store.  The canvasGrid renderer and the UI
selector fields pathfindingAlgorithm and entityToSet are external state the
modelled operations never read, so they are omitted. -/
structure Area where
  width : ℕ
  height : ℕ
  allowDiagonalsInPaths : Bool
  entities : EntityMap
deriving DecidableEq, Repr

/-- Area.areCoordinatesValid: pure bounds check. -/
def Area.areCoordinatesValid (a : Area) (xy : Coordinates) : Bool :=
  decide (0 ≤ xy.x) && decide (xy.x < (a.width : ℤ)) &&
    decide (0 ≤ xy.y) && decide (xy.y < (a.height : ℤ))

/-- Area.isValidAgentPosition: in bounds and not a wall. -/
def Area.isValidAgentPosition (a : Area) (xy : Coordinates) : Bool :=
  a.areCoordinatesValid xy && decide (jsGet a.entities xy ≠ some EntityKind.wall)

/-- Area.addEntity: fails when the cell already holds an entry, records the
kind unless it is the implicit empty kind.  The drawTile notification is
external. -/
def Area.addEntity (a : Area) (xy : Coordinates) (entityType : EntityKind) :
    Except AreaError Area :=
  if mapHas a.entities xy then Except.error AreaError.occupancyConflict
  else if entityType = EntityKind.empty then Except.ok a
  else Except.ok { a with entities := mapSet a.entities xy (some entityType) }

/-- Area.deleteEntity: removes the entry when present, silently tolerant of
absence. -/
def Area.deleteEntity (a : Area) (xy : Coordinates) : Area :=
  { a with entities := mapDelete a.entities xy }

/-- Area.moveEntity: relocates whatever the source cell holds (the raw
Map.get result, which is undefined for an unoccupied source) to the
destination cell when that cell is a valid agent position; otherwise leaves
the state unchanged.  The source sets the new key before deleting the old
one; both orders are reproduced. -/
def Area.moveEntity (a : Area) (xy : Coordinates) (direction : Direction) :
    Area × Coordinates :=
  let newCoordinates := xy.move direction
  if a.isValidAgentPosition newCoordinates then
    ({ a with
        entities := mapDelete (mapSet a.entities newCoordinates (jsGet a.entities xy)) xy },
      newCoordinates)
  else (a, xy)

/-- State threaded through findDepthFirstPath.  The source shares the
visitedNodes set and the navigated array by reference across the recursion;
here they are passed explicitly.  The entries list is a ghost trace not
present in the source: it records every call entry (mirroring the
navigated.push that opens every call, which the source itself later mangles
with shift and pop) together with whether the entered coordinate was
already in the visited set at that moment, so that theorems can speak
about re-entered coordinates. -/
structure DfsState where
  visited : Finset Coordinates
  navigated : List Coordinates
  entries : List (Coordinates × Bool)
deriving DecidableEq

/-- The for loop over unvisited neighbours, generic in the recursive step:
recurse into each in turn until one returns a non-empty path, propagating a
fuel exhaustion. -/
def dfsChildrenGen (step : Coordinates → DfsState → Option (List Coordinates × DfsState)) :
    List Coordinates → DfsState → Option (List Coordinates × DfsState)
  | [], st => some ([], st)
  | n :: rest, st =>
    match step n st with
    | none => none
    | some (path, st2) =>
      if path.isEmpty then dfsChildrenGen step rest st2 else some (path, st2)

/-- Area.findDepthFirstPath, recursion body.  Fuel bounds the recursion
depth; a none result means the JavaScript recursion would have nested
deeper than the given fuel.  The validity predicate, the diagonal flag and
the neighbour sorting function are the pieces of Area state the source
reads. -/
def dfsAux (valid : Coordinates → Bool) (flag : Bool)
    (sortNeighbours : List Coordinates → List Coordinates) (destination : Coordinates) :
    ℕ → Coordinates → DfsState → Option (List Coordinates × DfsState)
  | 0, _, _ => none
  | fuel + 1, source, st =>
    let st1 : DfsState :=
      { st with navigated := st.navigated ++ [source],
                entries := st.entries ++ [(source, decide (source ∈ st.visited))] }
    if source = destination then
      let trimmed := (st1.navigated.drop 1).dropLast
      some (trimmed, { st1 with navigated := trimmed })
    else
      let st2 : DfsState := { st1 with visited := insert source st1.visited }
      let unvisitedNeighbours :=
        sortNeighbours ((source.getNeighbours flag).filter
          (fun n => valid n && decide (n ∉ st2.visited)))
      dfsChildrenGen (dfsAux valid flag sortNeighbours destination fuel)
        unvisitedNeighbours st2

/-- Fuel budget used by the wrappers: strictly more than twice the cell
count, which the depth bound lemma below proves sufficient for every
invocation. -/
def dfsFuel (a : Area) : ℕ :=
  2 * a.width * a.height + 3

/-- Area.findDepthFirstPath with the optional arguments of the source
(empty visited set, identity sorting, empty navigated trail by default). -/
def Area.findDepthFirstPath (a : Area) (source destination : Coordinates)
    (visitedNodes : Finset Coordinates := ∅)
    (sortNeighbours : List Coordinates → List Coordinates := id)
    (navigated : List Coordinates := []) : List Coordinates :=
  match dfsAux (fun c => a.isValidAgentPosition c) a.allowDiagonalsInPaths sortNeighbours
      destination (dfsFuel a) source ⟨visitedNodes, navigated, []⟩ with
  | some (path, _) => path
  | none => []

/-- Area.findDepthFirstPathDirectionally: findDepthFirstPath with the
neighbour batches sorted ascending by Euclidean distance to the
destination.  Array.prototype.sort is stable and the comparator orders by
the magnitudes, which the stable mergeSort below reproduces. -/
noncomputable def Area.findDepthFirstPathDirectionally (a : Area)
    (source destination : Coordinates)
    (maybeVisitedNodes : Finset Coordinates := ∅) : List Coordinates :=
  a.findDepthFirstPath source destination maybeVisitedNodes
    (fun neighbours => neighbours.mergeSort (fun b c =>
      decide ((destination.difference b).magnitude ≤ (destination.difference c).magnitude)))

section Dijkstra

variable {α : Type} [LinearOrderedCommRing α]

/-- Pointwise update of a function-backed map. -/
def updOpt {β : Type} (f : Coordinates → Option β) (k : Coordinates) (v : β) :
    Coordinates → Option β :=
  fun c => if c = k then some v else f c

/-- The comparator compareDistances restricted to what the algorithm
observes: a is strictly before b exactly when both distances are present
and the first is smaller; every comparison against an absent value is
false, as in JavaScript. -/
def ltOpt (x y : Option (WithTop α)) : Bool :=
  match x, y with
  | some v, some w => decide (v < w)
  | _, _ => false

/-- The head of the stable sort of the unvisited keys by compareDistances:
the earliest list element whose distance is strictly smaller than that of
everything before it, i.e. the first element achieving the minimum. -/
def selectMin (dist : Coordinates → Option (WithTop α)) : List Coordinates → Coordinates
  | [] => ⟨0, 0⟩
  | c :: rest => rest.foldl (fun best n => if ltOpt (dist n) (dist best) then n else best) c

/-- The updateDistance closure: relax one neighbour, recording the new
distance and the predecessor when the candidate improves on a present
distance.  Comparisons against an absent distance are false, as in
JavaScript. -/
def updateDistance (getHeuristic : Coordinates → α) (current n : Coordinates)
    (dp : (Coordinates → Option (WithTop α)) × (Coordinates → Option Coordinates)) :
    (Coordinates → Option (WithTop α)) × (Coordinates → Option Coordinates) :=
  match dp.1 current, dp.1 n with
  | some dcur, some dn =>
    let candidate := dcur + 1 + (getHeuristic n : WithTop α)
    if candidate < dn then (updOpt dp.1 n candidate, updOpt dp.2 n current) else dp
  | _, _ => dp

/-- The forEach over the neighbours of the extracted node, applying
updateDistance to each. -/
def relaxAll (getHeuristic : Coordinates → α) (current : Coordinates)
    (neighbours : List Coordinates)
    (dp : (Coordinates → Option (WithTop α)) × (Coordinates → Option Coordinates)) :
    (Coordinates → Option (WithTop α)) × (Coordinates → Option Coordinates) :=
  neighbours.foldl (fun dp n => updateDistance getHeuristic current n dp) dp

/-- The predecessor walk of the reconstruction loop: push the node exactly
when it has a recorded predecessor, then continue from that predecessor. -/
def reconstructWalk (prev : Coordinates → Option Coordinates) :
    ℕ → Coordinates → List Coordinates
  | 0, _ => []
  | fuel + 1, p =>
    match prev p with
    | none => []
    | some nxt => p :: reconstructWalk prev fuel nxt

/-- Path reconstruction, entered at the predecessor of the destination (an
absent predecessor walks nothing at all, as in the source). -/
def reconstructPath (prev : Coordinates → Option Coordinates) (fuel : ℕ)
    (destination : Coordinates) : List Coordinates :=
  match prev destination with
  | none => []
  | some p => reconstructWalk prev fuel p

/-- The while loop of findDijkstraPath.  Each iteration removes the
extracted key, so the initial unvisited length is an exact fuel budget: the
zero-fuel branch is reachable only with an already-empty unvisited list. -/
def dijkstraLoop (flag : Bool) (destination : Coordinates) (getHeuristic : Coordinates → α)
    (reconFuel : ℕ) :
    ℕ → List Coordinates → (Coordinates → Option (WithTop α)) →
      (Coordinates → Option Coordinates) → List Coordinates
  | 0, _, _, _ => []
  | fuel + 1, unvisited, dist, prev =>
    if unvisited.isEmpty then []
    else
      let current := selectMin dist unvisited
      let unvisited2 := unvisited.erase current
      if current = destination then reconstructPath prev reconFuel destination
      else
        let dp := relaxAll getHeuristic current (current.getNeighbours flag) (dist, prev)
        dijkstraLoop flag destination getHeuristic reconFuel fuel unvisited2 dp.1 dp.2

/-- The row-major scan of the full grid used to initialise the distance and
unvisited maps. -/
def rowMajorCells (W H : ℕ) : List Coordinates :=
  (List.range H).flatMap (fun (y : ℕ) => (List.range W).map
    (fun (x : ℕ) => { x := (x : ℤ), y := (y : ℤ) }))

/-- Area.findDijkstraPath.  The source takes the heuristic as an optional
argument defaulting to the constant zero; callers here pass that default
explicitly.  The distance map holds 0 for the source, Infinity for every
other valid cell of the grid, and nothing for anything else; the unvisited
keys are the source followed by the valid cells in row-major order. -/
def Area.findDijkstraPath (a : Area) (source destination : Coordinates)
    (getHeuristic : Coordinates → α) : List Coordinates :=
  let dist0 : Coordinates → Option (WithTop α) := fun c =>
    if c = source then some 0
    else if a.isValidAgentPosition c then some ⊤ else none
  let unvisited0 : List Coordinates :=
    source :: (rowMajorCells a.width a.height).filter
      (fun c => a.isValidAgentPosition c && c != source)
  dijkstraLoop a.allowDiagonalsInPaths destination getHeuristic (a.width * a.height + 1)
    unvisited0.length unvisited0 dist0 (fun _ => none)

end Dijkstra

/-- Area.findAStarPath: Dijkstra with the Euclidean distance to the
destination added into the realised distance. -/
noncomputable def Area.findAStarPath (a : Area) (source destination : Coordinates) :
    List Coordinates :=
  a.findDijkstraPath source destination
    (fun neighbour => (neighbour.difference destination).magnitude)

/-- The fixed detection radius of the pursuit policy. -/
def enemyDetectionProximity : ℝ := 6

open scoped Classical in
/-- One enemy update of the pursuit tick (the body of the forEach in the
directional input handler, for an enemy that is not sitting on the agent).
Returns the updated area, the enemy position after the tick, and the
inPursuit flag contribution; an error is the uncaught exception thrown by
addEntity, which aborts the whole handler.

On the occupancy lookup: the source reads area.entities.get(newPosition),
passing the Coordinates object itself to a Map whose keys are coordinate
strings.  Map.get compares keys with SameValueZero, under which an object
is never equal to any string, so that lookup always yields undefined; it is
therefore modelled by the constant none below. -/
noncomputable def pursuitEnemyStep (area : Area) (agentPosition position : Coordinates) :
    Except AreaError (Area × Coordinates × Bool) :=
  if agentPosition.withinProximity enemyDetectionProximity position then
    match (area.findDijkstraPath agentPosition position (fun _ => (0 : ℤ))).head? with
    | none => Except.ok (area, position, false)
    | some newPosition =>
      let entity : Option EntityKind := none
      if entity ≠ some EntityKind.enemy ∧ entity ≠ some EntityKind.destination then
        let area2 := area.deleteEntity position
        (area2.addEntity newPosition EntityKind.enemy).map
          (fun area3 => (area3, newPosition, true))
      else Except.ok (area, position, false)
  else Except.ok (area, position, false)

/-- Coordinate within the inclusive-exclusive grid bounds. -/
def InBounds (a : Area) (xy : Coordinates) : Prop :=
  0 ≤ xy.x ∧ xy.x < (a.width : ℤ) ∧ 0 ≤ xy.y ∧ xy.y < (a.height : ℤ)

/-- The claimed entity-mapping invariant: every present key is in bounds
and holds a stored, non-empty kind. -/
def EntitiesWellFormed (a : Area) : Prop :=
  ∀ k v, mapGet a.entities k = some v →
    InBounds a k ∧ ∃ e, v = some e ∧ e ≠ EntityKind.empty

/-- Manhattan distance between two coordinates. -/
def manhattanDist (a b : Coordinates) : ℤ :=
  |a.x - b.x| + |a.y - b.y|

/-- An obstacle-free area: no cell is mapped to the wall kind. -/
def ObstacleFree (a : Area) : Prop :=
  ∀ c, jsGet a.entities c ≠ some EntityKind.wall

/-- A W by H area with no entities and diagonals disallowed. -/
def openArea (W H : ℕ) : Area :=
  { width := W, height := H, allowDiagonalsInPaths := false, entities := [] }

/-- The finite set of cells a validity predicate accepts within the W by H
grid scan. -/
def validCellsFinset (valid : Coordinates → Bool) (W H : ℕ) : Finset Coordinates :=
  ((rowMajorCells W H).filter (fun c => valid c)).toFinset

/-- Termination measure for the depth-first recursion: zero at the
destination (such frames return immediately), otherwise governed by how
many cells of S remain unvisited once the current source is marked, plus a
small correction distinguishing fresh frames from re-entered ones. -/
def dfsMeasure (S : Finset Coordinates) (destination source : Coordinates)
    (V : Finset Coordinates) : ℕ :=
  if source = destination then 0
  else 2 * (S \ insert source V).card + (if source ∈ V then 1 else 2)

/-- How many times a coordinate was entered while not yet in the visited
set, according to the ghost entry trace. -/
def freshEntryCount (c : Coordinates) (l : List (Coordinates × Bool)) : ℕ :=
  (l.filter (fun e => decide (e.1 = c) && !e.2)).length

/-- Every coordinate other than the destination has been entered unvisited
at most once, and only coordinates already marked visited can have been
entered unvisited at all. -/
def FreshInv (destination : Coordinates) (st : DfsState) : Prop :=
  ∀ c, c ≠ destination →
    freshEntryCount c st.entries ≤ (if c ∈ st.visited then 1 else 0)

/-- Invariant carried by the Dijkstra loop state.  It records what the
relaxation discipline guarantees about the distance and predecessor maps:
the source keeps distance zero, every recorded distance is nonnegative,
distances exist only for the source and valid cells, every recorded
predecessor edge goes from a valid non-source cell to a grid neighbour of
strictly smaller distance, and every finite-distance cell other than the
source has a predecessor. -/
def DijkstraInv {α : Type} [LinearOrderedCommRing α] (flag : Bool) (source : Coordinates)
    (valid : Coordinates → Bool) (dist : Coordinates → Option (WithTop α))
    (prev : Coordinates → Option Coordinates) : Prop :=
  dist source = some 0 ∧
  (∀ c v, dist c = some v → 0 ≤ v) ∧
  (∀ c v, dist c = some v → c = source ∨ valid c = true) ∧
  (∀ c p, prev c = some p →
    valid c = true ∧ c ≠ source ∧ c ∈ p.getNeighbours flag ∧
    ∃ dc dp, dist c = some dc ∧ dist p = some dp ∧ dp < dc) ∧
  (∀ c v, dist c = some v → v ≠ ⊤ → c ≠ source → prev c ≠ none)

/-- A list is the predecessor walk from a node all the way back to (but
excluding) the source. -/
inductive PrevChain (prev : Coordinates → Option Coordinates) (source : Coordinates) :
    Coordinates → List Coordinates → Prop where
  | base : PrevChain prev source source []
  | step : ∀ p q l, prev p = some q → PrevChain prev source q l →
      PrevChain prev source p (p :: l)

/-!  Theorems.  Basic lemmas about the map operations come first, then the
claim theorems with their witnesses.  -/

/-- Keys of an entity mapping are pairwise distinct.  JavaScript Maps hold
at most one entry per key, so every mapping reachable in the program
satisfies this; it is a hypothesis wherever a theorem ranges over raw
EntityMap values. -/
def KeysNodup (m : EntityMap) : Prop :=
  (m.map Prod.fst).Nodup

theorem mapGet_mapSet_self (m : EntityMap) (k : Coordinates) (v : Option EntityKind) :
    mapGet (mapSet m k v) k = some v := by
  induction m with
  | nil => simp [mapSet, mapGet]
  | cons hd tl ih =>
    obtain ⟨k0, v0⟩ := hd
    by_cases h : k0 = k
    · simp [mapSet, h, mapGet]
    · simp [mapSet, h, mapGet, ih]

theorem mem_keys_mapSet (m : EntityMap) (k x : Coordinates) (v : Option EntityKind) :
    x ∈ (mapSet m k v).map Prod.fst ↔ x = k ∨ x ∈ m.map Prod.fst := by
  induction m with
  | nil => simp [mapSet]
  | cons hd tl ih =>
    obtain ⟨k0, v0⟩ := hd
    by_cases h0 : k0 = k
    · subst h0
      simp [mapSet]
    · simp [mapSet, h0, ih]
      tauto

theorem mapGet_mapSet_ne (m : EntityMap) (k c : Coordinates) (v : Option EntityKind)
    (h : c ≠ k) : mapGet (mapSet m k v) c = mapGet m c := by
  induction m with
  | nil => simp [mapSet, mapGet, Ne.symm h]
  | cons hd tl ih =>
    obtain ⟨k0, v0⟩ := hd
    by_cases h0 : k0 = k
    · subst h0
      simp [mapSet, mapGet, Ne.symm h]
    · by_cases h1 : k0 = c <;> simp [mapSet, h0, mapGet, h1, ih, h]

theorem mapGet_mapDelete_ne (m : EntityMap) (k c : Coordinates) (h : c ≠ k) :
    mapGet (mapDelete m k) c = mapGet m c := by
  induction m with
  | nil => simp [mapDelete]
  | cons hd tl ih =>
    obtain ⟨k0, v0⟩ := hd
    by_cases h0 : k0 = k
    · subst h0
      simp [mapDelete, mapGet, Ne.symm h]
    · by_cases h1 : k0 = c <;> simp [mapDelete, h0, mapGet, h1, ih, h]

theorem mapGet_of_not_mem_keys (m : EntityMap) (k : Coordinates)
    (h : k ∉ m.map Prod.fst) : mapGet m k = none := by
  induction m with
  | nil => simp [mapGet]
  | cons hd tl ih =>
    obtain ⟨k0, v0⟩ := hd
    simp only [List.map_cons, List.mem_cons] at h
    push_neg at h
    simp [mapGet, Ne.symm h.1, ih h.2]

theorem mapGet_mapDelete_self (m : EntityMap) (k : Coordinates) (hn : KeysNodup m) :
    mapGet (mapDelete m k) k = none := by
  induction m with
  | nil => simp [mapDelete, mapGet]
  | cons hd tl ih =>
    obtain ⟨k0, v0⟩ := hd
    have hn2 : (k0 :: tl.map Prod.fst).Nodup := by simpa [KeysNodup] using hn
    by_cases h0 : k0 = k
    · subst h0
      simp only [mapDelete, if_pos rfl]
      exact mapGet_of_not_mem_keys tl k0 (List.nodup_cons.mp hn2).1
    · have : KeysNodup tl := (List.nodup_cons.mp hn2).2
      simp [mapDelete, h0, mapGet, h0, ih this]

theorem mapGet_absent_delete (m : EntityMap) (k : Coordinates)
    (h : mapGet m k = none) : mapDelete m k = m := by
  induction m with
  | nil => simp [mapDelete]
  | cons hd tl ih =>
    obtain ⟨k0, v0⟩ := hd
    by_cases h0 : k0 = k
    · simp [mapGet, h0] at h
    · simp only [mapGet, if_neg h0] at h
      simp [mapDelete, h0, ih h]

theorem keysNodup_mapSet (m : EntityMap) (k : Coordinates) (v : Option EntityKind)
    (hn : KeysNodup m) : KeysNodup (mapSet m k v) := by
  induction m with
  | nil => simp [mapSet, KeysNodup]
  | cons hd tl ih =>
    obtain ⟨k0, v0⟩ := hd
    have hn2 : (k0 :: tl.map Prod.fst).Nodup := by simpa [KeysNodup] using hn
    have hhd : k0 ∉ tl.map Prod.fst := (List.nodup_cons.mp hn2).1
    have htl : KeysNodup tl := (List.nodup_cons.mp hn2).2
    by_cases h0 : k0 = k
    · subst h0
      have : KeysNodup ((k0, v) :: tl) := by
        simpa [KeysNodup] using hn2
      simpa [mapSet, KeysNodup] using this
    · have hset := ih htl
      have : KeysNodup ((k0, v0) :: mapSet tl k v) := by
        simp only [KeysNodup, List.map_cons, List.nodup_cons]
        refine ⟨fun hm => ?_, hset⟩
        rcases (mem_keys_mapSet tl k k0 v).mp hm with h | h
        · exact h0 h
        · exact hhd h
      simpa [mapSet, h0, KeysNodup] using this

theorem keys_mapDelete_subset (m : EntityMap) (k : Coordinates) :
    (mapDelete m k).map Prod.fst ⊆ m.map Prod.fst := by
  induction m with
  | nil => simp [mapDelete]
  | cons hd tl ih =>
    obtain ⟨k1, v1⟩ := hd
    by_cases h1 : k1 = k
    · simp only [mapDelete, if_pos h1, List.map_cons]
      exact fun x hx => List.mem_cons_of_mem _ hx
    · simp only [mapDelete, if_neg h1, List.map_cons]
      exact List.cons_subset_cons _ ih

theorem keysNodup_mapDelete (m : EntityMap) (k : Coordinates)
    (hn : KeysNodup m) : KeysNodup (mapDelete m k) := by
  induction m with
  | nil => simp [mapDelete, KeysNodup]
  | cons hd tl ih =>
    obtain ⟨k0, v0⟩ := hd
    have hn2 : (k0 :: tl.map Prod.fst).Nodup := by simpa [KeysNodup] using hn
    have hhd : k0 ∉ tl.map Prod.fst := (List.nodup_cons.mp hn2).1
    have htl : KeysNodup tl := (List.nodup_cons.mp hn2).2
    by_cases h0 : k0 = k
    · subst h0
      simpa [mapDelete, KeysNodup] using htl
    · have hdel := ih htl
      have : KeysNodup ((k0, v0) :: mapDelete tl k) := by
        simp only [KeysNodup, List.map_cons, List.nodup_cons]
        refine ⟨fun hm => ?_, hdel⟩
        exact hhd (keys_mapDelete_subset tl k hm)
      simpa [mapDelete, h0, KeysNodup] using this

theorem move_ne (c : Coordinates) (d : Direction) : c.move d ≠ c := by
  obtain ⟨x, y⟩ := c
  cases d <;> simp [Coordinates.move]

theorem isValid_inBounds (a : Area) (xy : Coordinates)
    (h : a.isValidAgentPosition xy = true) : InBounds a xy := by
  have hb : a.areCoordinatesValid xy = true := by
    simp only [Area.isValidAgentPosition, Bool.and_eq_true] at h
    exact h.1
  simp only [Area.areCoordinatesValid, Bool.and_eq_true, decide_eq_true_eq] at hb
  exact ⟨hb.1.1.1, hb.1.1.2, hb.1.2, hb.2⟩

theorem isValid_not_wall (a : Area) (xy : Coordinates)
    (h : a.isValidAgentPosition xy = true) : jsGet a.entities xy ≠ some EntityKind.wall := by
  simp only [Area.isValidAgentPosition, Bool.and_eq_true, decide_eq_true_eq] at h
  exact h.2

/-- Claim C7: addEntity on a cell whose key is already present in the
entity mapping fails with the occupancy-conflict error and leaves the
mapping unchanged (the error branch is taken before any write, so the area
value is untouched); addEntity on an unoccupied cell never fails;
deleteEntity on a cell with no mapping entry succeeds as a silent
no-op. -/
theorem claim_C7 :
    (∀ (a : Area) (xy : Coordinates) (k : EntityKind), mapHas a.entities xy = true →
      a.addEntity xy k = Except.error AreaError.occupancyConflict) ∧
    (∀ (a : Area) (xy : Coordinates) (k : EntityKind), mapHas a.entities xy = false →
      ∃ a2, a.addEntity xy k = Except.ok a2) ∧
    (∀ (a : Area) (xy : Coordinates), mapGet a.entities xy = none →
      a.deleteEntity xy = a) := by
  refine ⟨fun a xy k h => ?_, fun a xy k h => ?_, fun a xy h => ?_⟩
  · simp [Area.addEntity, h]
  · by_cases hk : k = EntityKind.empty <;> simp [Area.addEntity, h, hk]
  · simp [Area.deleteEntity, mapGet_absent_delete a.entities xy h]

/-- Witness for C7 at concrete inputs: a 2 by 2 area holding a single wall
at the origin. -/
theorem claim_C7_witness :
    (mapHas [((⟨0, 0⟩ : Coordinates), some EntityKind.wall)] ⟨0, 0⟩ = true ∧
      Area.addEntity (Area.mk 2 2 false [(⟨0, 0⟩, some EntityKind.wall)]) ⟨0, 0⟩
          EntityKind.enemy = Except.error AreaError.occupancyConflict) ∧
    (mapGet [((⟨0, 0⟩ : Coordinates), some EntityKind.wall)] ⟨1, 1⟩ = none ∧
      Area.deleteEntity (Area.mk 2 2 false [(⟨0, 0⟩, some EntityKind.wall)]) ⟨1, 1⟩ =
        Area.mk 2 2 false [(⟨0, 0⟩, some EntityKind.wall)]) := by
  refine ⟨⟨by decide, claim_C7.1 _ _ _ (by decide)⟩, ⟨by decide, claim_C7.2.2 _ _ (by decide)⟩⟩

/-- Claim C8: for every Area and every cell xy with a recognised direction,
if the cell one step in that direction is a valid agent position then
moveEntity relocates the occupant of xy there (the destination key now
holds exactly what the source cell held, the source key is gone) and
returns the new coordinates; otherwise the mapping is left entirely
unchanged and the original xy is returned.  In both cases no mapping entry
other than those at xy and the destination cell is affected.  The
KeysNodup hypothesis records that JavaScript Maps hold one entry per
key. -/
theorem claim_C8 :
    ∀ (a : Area) (xy : Coordinates) (direction : Direction), KeysNodup a.entities →
      (a.isValidAgentPosition (xy.move direction) = true →
        (a.moveEntity xy direction).2 = xy.move direction ∧
        mapGet (a.moveEntity xy direction).1.entities (xy.move direction) =
          some (jsGet a.entities xy) ∧
        mapGet (a.moveEntity xy direction).1.entities xy = none ∧
        (∀ c, c ≠ xy → c ≠ xy.move direction →
          mapGet (a.moveEntity xy direction).1.entities c = mapGet a.entities c)) ∧
      (a.isValidAgentPosition (xy.move direction) = false →
        a.moveEntity xy direction = (a, xy)) := by
  intro a xy direction hn
  set n := xy.move direction with hmove
  have hne : n ≠ xy := by
    rw [hmove]
    exact move_ne xy direction
  constructor
  · intro hv
    have hres : a.moveEntity xy direction =
        ({ a with entities := mapDelete (mapSet a.entities n (jsGet a.entities xy)) xy }, n) := by
      simp [Area.moveEntity, hv]
    refine ⟨by simp [hres], ?_, ?_, ?_⟩
    · rw [hres]
      simp only
      rw [mapGet_mapDelete_ne _ _ _ hne, mapGet_mapSet_self]
    · rw [hres]
      simp only
      exact mapGet_mapDelete_self _ _ (keysNodup_mapSet _ _ _ hn)
    · intro c hcxy hcn
      rw [hres]
      simp only
      rw [mapGet_mapDelete_ne _ _ _ hcxy, mapGet_mapSet_ne _ _ _ _ hcn]
  · intro hv
    simp [Area.moveEntity, ← hmove, hv]

/-- Witness for C8 on a concrete 2 by 2 area holding an agent at the
origin: a valid move to the right relocates it, an out-of-bounds move to
the left leaves everything unchanged. -/
theorem claim_C8_witness :
    (Area.isValidAgentPosition (Area.mk 2 2 false [(⟨0, 0⟩, some EntityKind.agent)])
        ((⟨0, 0⟩ : Coordinates).move Direction.right) = true ∧
      ((Area.mk 2 2 false [(⟨0, 0⟩, some EntityKind.agent)]).moveEntity ⟨0, 0⟩
          Direction.right).2 = (⟨0, 0⟩ : Coordinates).move Direction.right) ∧
    (Area.isValidAgentPosition (Area.mk 2 2 false [(⟨0, 0⟩, some EntityKind.agent)])
        ((⟨0, 0⟩ : Coordinates).move Direction.left) = false ∧
      (Area.mk 2 2 false [(⟨0, 0⟩, some EntityKind.agent)]).moveEntity ⟨0, 0⟩
          Direction.left = (Area.mk 2 2 false [(⟨0, 0⟩, some EntityKind.agent)], ⟨0, 0⟩)) := by
  refine ⟨⟨by decide, ?_⟩, ⟨by decide, ?_⟩⟩
  · exact ((claim_C8 _ _ Direction.right (by simp [KeysNodup])).1 (by decide)).1
  · exact (claim_C8 _ _ Direction.left (by simp [KeysNodup])).2 (by decide)

/-- Counterexample for C6: the claim fails because addEntity performs no
bounds check at all.  Starting from an empty 2 by 2 area, a single
addEntity at (-1, 0) succeeds and leaves a key outside the grid bounds in
the mapping. -/
theorem claim_C6_counterexample :
    Area.addEntity (openArea 2 2) ⟨-1, 0⟩ EntityKind.wall =
      Except.ok (Area.mk 2 2 false [(⟨-1, 0⟩, some EntityKind.wall)]) ∧
    ¬ EntitiesWellFormed (Area.mk 2 2 false [(⟨-1, 0⟩, some EntityKind.wall)]) := by
  constructor
  · rfl
  · intro h
    have hb := (h ⟨-1, 0⟩ (some EntityKind.wall) (by decide)).1
    exact absurd hb.1 (by decide)

/-- Claim C6, amended: the invariant that every present key is in bounds
and holds a non-empty stored kind is preserved by deleteEntity
unconditionally, by addEntity when it is invoked with in-bounds
coordinates, and by moveEntity when its source cell is currently occupied.
Without those restrictions it fails: addEntity performs no bounds check
(see the counterexample), and moveEntity from an unoccupied source cell
stores an undefined value under the destination key. -/
theorem claim_C6 :
    (∀ (a : Area) (xy : Coordinates) (k : EntityKind) (a2 : Area),
      EntitiesWellFormed a → InBounds a xy → a.addEntity xy k = Except.ok a2 →
      EntitiesWellFormed a2) ∧
    (∀ (a : Area) (xy : Coordinates), KeysNodup a.entities → EntitiesWellFormed a →
      EntitiesWellFormed (a.deleteEntity xy)) ∧
    (∀ (a : Area) (xy : Coordinates) (d : Direction), KeysNodup a.entities →
      EntitiesWellFormed a → mapHas a.entities xy = true →
      EntitiesWellFormed (a.moveEntity xy d).1) := by
  refine ⟨?_, ?_, ?_⟩
  · intro a xy k a2 hwf hxy hok
    by_cases hhas : mapHas a.entities xy = true
    · simp [Area.addEntity, hhas] at hok
    · rw [Area.addEntity, if_neg hhas] at hok
      by_cases hk : k = EntityKind.empty
      · rw [if_pos hk] at hok
        cases hok
        exact hwf
      · rw [if_neg hk] at hok
        cases hok
        intro key v hget
        by_cases hkey : key = xy
        · subst hkey
          rw [mapGet_mapSet_self] at hget
          cases hget
          exact ⟨hxy, k, rfl, hk⟩
        · rw [mapGet_mapSet_ne _ _ _ _ hkey] at hget
          exact hwf key v hget
  · intro a xy hn hwf key v hget
    by_cases hkey : key = xy
    · subst hkey
      rw [Area.deleteEntity] at hget
      simp only at hget
      rw [mapGet_mapDelete_self _ _ hn] at hget
      cases hget
    · rw [Area.deleteEntity] at hget
      simp only at hget
      rw [mapGet_mapDelete_ne _ _ _ hkey] at hget
      exact hwf key v hget
  · intro a xy d hn hwf hhas
    set n := xy.move d with hmove
    by_cases hv : a.isValidAgentPosition n = true
    · have hres : (a.moveEntity xy d).1 =
          { a with entities := mapDelete (mapSet a.entities n (jsGet a.entities xy)) xy } := by
        simp [Area.moveEntity, ← hmove, hv]
      obtain ⟨v0, hv0⟩ := Option.isSome_iff_exists.mp (by simpa [mapHas] using hhas)
      obtain ⟨-, e, he, hne⟩ := hwf xy v0 hv0
      have hjs : jsGet a.entities xy = some e := by
        rw [jsGet, hv0, he]
        rfl
      have hne2 : n ≠ xy := by
        rw [hmove]
        exact move_ne xy d
      intro key v hget
      rw [hres] at hget ⊢
      simp only at hget
      by_cases hkey : key = xy
      · subst hkey
        rw [mapGet_mapDelete_self _ _ (keysNodup_mapSet _ _ _ hn)] at hget
        cases hget
      · rw [mapGet_mapDelete_ne _ _ _ hkey] at hget
        by_cases hkn : key = n
        · rw [hkn] at hget ⊢
          rw [mapGet_mapSet_self] at hget
          cases hget
          exact ⟨isValid_inBounds a n hv, e, by rw [hjs], hne⟩
        · rw [mapGet_mapSet_ne _ _ _ _ hkn] at hget
          exact hwf key v hget
    · have : (a.moveEntity xy d).1 = a := by
        simp [Area.moveEntity, ← hmove, hv]
      rw [this]
      exact hwf

/-- Witness for the amended C6 at concrete inputs: adding a wall at the
in-bounds origin of an empty 2 by 2 area yields a well-formed mapping. -/
theorem claim_C6_witness :
    EntitiesWellFormed (Area.mk 2 2 false [(⟨0, 0⟩, some EntityKind.wall)]) :=
  claim_C6.1 (openArea 2 2) ⟨0, 0⟩ EntityKind.wall
    (Area.mk 2 2 false [(⟨0, 0⟩, some EntityKind.wall)])
    (fun k v h => absurd h (by simp [openArea, mapGet]))
    (by refine ⟨by norm_num, ?_, by norm_num, ?_⟩ <;> norm_num [openArea])
    rfl

theorem isValid_congr (a1 a2 : Area) (hW : a1.width = a2.width) (hH : a1.height = a2.height)
    (hwall : ∀ c, jsGet a1.entities c = some EntityKind.wall ↔
      jsGet a2.entities c = some EntityKind.wall) :
    Area.isValidAgentPosition a1 = Area.isValidAgentPosition a2 := by
  funext c
  simp only [Area.isValidAgentPosition, Area.areCoordinatesValid, hW, hH]
  congr 1
  exact decide_eq_decide.mpr (not_iff_not.mpr (hwall c))

theorem findDepthFirstPath_congr (a1 a2 : Area) (s d : Coordinates)
    (visited : Finset Coordinates) (sortN : List Coordinates → List Coordinates)
    (nav : List Coordinates)
    (hW : a1.width = a2.width) (hH : a1.height = a2.height)
    (hFlag : a1.allowDiagonalsInPaths = a2.allowDiagonalsInPaths)
    (hwall : ∀ c, jsGet a1.entities c = some EntityKind.wall ↔
      jsGet a2.entities c = some EntityKind.wall) :
    a1.findDepthFirstPath s d visited sortN nav = a2.findDepthFirstPath s d visited sortN nav := by
  have hV := isValid_congr a1 a2 hW hH hwall
  simp only [Area.findDepthFirstPath, dfsFuel, hW, hH, hFlag, hV]

theorem findDijkstraPath_congr {α : Type} [LinearOrderedCommRing α] (a1 a2 : Area)
    (s d : Coordinates) (getHeuristic : Coordinates → α)
    (hW : a1.width = a2.width) (hH : a1.height = a2.height)
    (hFlag : a1.allowDiagonalsInPaths = a2.allowDiagonalsInPaths)
    (hwall : ∀ c, jsGet a1.entities c = some EntityKind.wall ↔
      jsGet a2.entities c = some EntityKind.wall) :
    a1.findDijkstraPath s d getHeuristic = a2.findDijkstraPath s d getHeuristic := by
  have hV := isValid_congr a1 a2 hW hH hwall
  simp only [Area.findDijkstraPath, hW, hH, hFlag, hV]

/-- Claim C10: all four pathfinding routines, including the one labelled
Random Depth-First, are deterministic functions of the grid dimensions, the
wall placement, the diagonal flag, the source and the destination: two
areas agreeing on those (whatever other entities they hold, and whatever
the UI selector state) yield equal paths in every routine.  Neighbour
enumeration uses a fixed order and nothing here consults any source of
randomness; in this pure embedding the stronger fact also holds that each
routine reads the area only through the dimensions, the wall predicate and
the flag. -/
theorem claim_C10 :
    ∀ (a1 a2 : Area) (s d : Coordinates),
      a1.width = a2.width → a1.height = a2.height →
      a1.allowDiagonalsInPaths = a2.allowDiagonalsInPaths →
      (∀ c, jsGet a1.entities c = some EntityKind.wall ↔
        jsGet a2.entities c = some EntityKind.wall) →
      a1.findDepthFirstPath s d = a2.findDepthFirstPath s d ∧
      a1.findDepthFirstPathDirectionally s d = a2.findDepthFirstPathDirectionally s d ∧
      (∀ getHeuristic : Coordinates → ℤ,
        a1.findDijkstraPath s d getHeuristic = a2.findDijkstraPath s d getHeuristic) ∧
      a1.findAStarPath s d = a2.findAStarPath s d := by
  intro a1 a2 s d hW hH hFlag hwall
  refine ⟨?_, ?_, ?_, ?_⟩
  · exact findDepthFirstPath_congr a1 a2 s d _ _ _ hW hH hFlag hwall
  · simp only [Area.findDepthFirstPathDirectionally]
    exact findDepthFirstPath_congr a1 a2 s d _ _ _ hW hH hFlag hwall
  · exact fun getHeuristic => findDijkstraPath_congr a1 a2 s d getHeuristic hW hH hFlag hwall
  · simp only [Area.findAStarPath]
    exact findDijkstraPath_congr a1 a2 s d _ hW hH hFlag hwall

/-- Witness for C10: two concrete 3 by 3 areas with the same single wall
but different other entities (an enemy in one, a destination marker in the
other) give equal results in all four routines. -/
theorem claim_C10_witness :
    (Area.mk 3 3 false [(⟨1, 1⟩, some EntityKind.wall), (⟨0, 1⟩, some EntityKind.enemy)]).findDepthFirstPath ⟨0, 0⟩ ⟨2, 2⟩ =
      (Area.mk 3 3 false [(⟨1, 1⟩, some EntityKind.wall), (⟨2, 0⟩, some EntityKind.destination)]).findDepthFirstPath ⟨0, 0⟩ ⟨2, 2⟩ ∧
    (Area.mk 3 3 false [(⟨1, 1⟩, some EntityKind.wall), (⟨0, 1⟩, some EntityKind.enemy)]).findAStarPath ⟨0, 0⟩ ⟨2, 2⟩ =
      (Area.mk 3 3 false [(⟨1, 1⟩, some EntityKind.wall), (⟨2, 0⟩, some EntityKind.destination)]).findAStarPath ⟨0, 0⟩ ⟨2, 2⟩ := by
  have hwall : ∀ c : Coordinates,
      jsGet [((⟨1, 1⟩ : Coordinates), some EntityKind.wall), (⟨0, 1⟩, some EntityKind.enemy)] c =
          some EntityKind.wall ↔
        jsGet [((⟨1, 1⟩ : Coordinates), some EntityKind.wall), (⟨2, 0⟩, some EntityKind.destination)] c =
          some EntityKind.wall := by
    intro c
    by_cases h11 : (⟨1, 1⟩ : Coordinates) = c
    · simp [jsGet, mapGet, h11]
    · constructor
      · intro h
        by_cases h01 : (⟨0, 1⟩ : Coordinates) = c <;>
          simp [jsGet, mapGet, h11, h01] at h
      · intro h
        by_cases h20 : (⟨2, 0⟩ : Coordinates) = c <;>
          simp [jsGet, mapGet, h11, h20] at h
  have h := claim_C10 (Area.mk 3 3 false [(⟨1, 1⟩, some EntityKind.wall), (⟨0, 1⟩, some EntityKind.enemy)])
    (Area.mk 3 3 false [(⟨1, 1⟩, some EntityKind.wall), (⟨2, 0⟩, some EntityKind.destination)])
    ⟨0, 0⟩ ⟨2, 2⟩ rfl rfl rfl hwall
  exact ⟨h.1, h.2.2.2⟩

/-- Claim C5, failing input (code bug): on a 4 by 1 corridor with the agent
at (0,0) and enemies at (1,0) and (2,0), the enemy at (2,0) is within the
detection radius and the Dijkstra path from the agent to it is [(1,0)], a
candidate cell already occupied by the other enemy.  The claim says the
enemy holds position this tick; instead the occupancy guard never fires
(the source reads entities.get with a Coordinates object on a string-keyed
Map), the enemy relocation is attempted, and addEntity throws the
occupancy-conflict error, which aborts the input handler after the old
enemy cell has already been deleted. -/
theorem claim_C5_bug :
    (Area.mk 4 1 false [(⟨0, 0⟩, some EntityKind.agent), (⟨1, 0⟩, some EntityKind.enemy),
        (⟨2, 0⟩, some EntityKind.enemy)]).findDijkstraPath ⟨0, 0⟩ ⟨2, 0⟩ (fun _ => (0 : ℤ)) =
      [⟨1, 0⟩] ∧
    jsGet [((⟨0, 0⟩ : Coordinates), some EntityKind.agent), (⟨1, 0⟩, some EntityKind.enemy),
        (⟨2, 0⟩, some EntityKind.enemy)] ⟨1, 0⟩ = some EntityKind.enemy ∧
    pursuitEnemyStep
        (Area.mk 4 1 false [(⟨0, 0⟩, some EntityKind.agent), (⟨1, 0⟩, some EntityKind.enemy),
          (⟨2, 0⟩, some EntityKind.enemy)]) ⟨0, 0⟩ ⟨2, 0⟩ =
      Except.error AreaError.occupancyConflict := by
  have hprox : (⟨0, 0⟩ : Coordinates).withinProximity enemyDetectionProximity ⟨2, 0⟩ := by
    unfold Coordinates.withinProximity Coordinates.magnitude Coordinates.difference
      enemyDetectionProximity
    rw [show (|(0 : ℤ) - 2| * |(0 : ℤ) - 2| + |(0 : ℤ) - 0| * |(0 : ℤ) - 0| : ℤ) = 4 by decide]
    rw [show (((4 : ℤ) : ℝ)) = 2 ^ 2 by norm_num]
    rw [Real.sqrt_sq (by norm_num : (0 : ℝ) ≤ 2)]
    norm_num
  refine ⟨by rfl, by rfl, ?_⟩
  unfold pursuitEnemyStep
  rw [if_pos hprox]
  rfl

theorem mem_rowMajorCells (W H : ℕ) (c : Coordinates) :
    c ∈ rowMajorCells W H ↔ 0 ≤ c.x ∧ c.x < (W : ℤ) ∧ 0 ≤ c.y ∧ c.y < (H : ℤ) := by
  constructor
  · intro h
    rw [rowMajorCells, List.mem_flatMap] at h
    obtain ⟨y, hy, hc⟩ := h
    rw [List.mem_map] at hc
    obtain ⟨x, hx, rfl⟩ := hc
    rw [List.mem_range] at hx
    rw [List.mem_range] at hy
    refine ⟨Int.natCast_nonneg x, ?_, Int.natCast_nonneg y, ?_⟩ <;>
      simp only [] <;> exact_mod_cast (by assumption)
  · rintro ⟨hx0, hxW, hy0, hyH⟩
    rw [rowMajorCells, List.mem_flatMap]
    refine ⟨c.y.toNat, ?_, ?_⟩
    · rw [List.mem_range]
      omega
    · rw [List.mem_map]
      refine ⟨c.x.toNat, ?_, ?_⟩
      · rw [List.mem_range]
        omega
      · obtain ⟨x, y⟩ := c
        simp only at hx0 hy0 ⊢
        congr 1 <;> omega

theorem dfsChildrenGen_visited_mono
    (step : Coordinates → DfsState → Option (List Coordinates × DfsState))
    (hstep : ∀ n st out, step n st = some out → st.visited ⊆ out.2.visited) :
    ∀ (l : List Coordinates) (st : DfsState) out,
      dfsChildrenGen step l st = some out → st.visited ⊆ out.2.visited := by
  intro l
  induction l with
  | nil =>
    intro st out h
    simp only [dfsChildrenGen] at h
    cases h
    exact Finset.Subset.refl _
  | cons n rest ih =>
    intro st out h
    simp only [dfsChildrenGen] at h
    cases hstep_eq : step n st with
    | none => rw [hstep_eq] at h; cases h
    | some r =>
      obtain ⟨path, st2⟩ := r
      rw [hstep_eq] at h
      simp only at h
      by_cases hp : path.isEmpty
      · rw [if_pos hp] at h
        exact (hstep n st _ hstep_eq).trans (ih st2 out h)
      · rw [if_neg hp] at h
        cases h
        exact hstep n st _ hstep_eq

theorem dfsAux_visited_mono (valid : Coordinates → Bool) (flag : Bool)
    (sortN : List Coordinates → List Coordinates) (dest : Coordinates) :
    ∀ (fuel : ℕ) (src : Coordinates) (st : DfsState) out,
      dfsAux valid flag sortN dest fuel src st = some out → st.visited ⊆ out.2.visited := by
  intro fuel
  induction fuel with
  | zero => intro src st out h; simp [dfsAux] at h
  | succ fuel ih =>
    intro src st out h
    simp only [dfsAux] at h
    by_cases hsd : src = dest
    · rw [if_pos hsd] at h
      cases h
      exact Finset.Subset.refl _
    · rw [if_neg hsd] at h
      have hsub : st.visited ⊆ insert src st.visited := Finset.subset_insert _ _
      exact hsub.trans
        (dfsChildrenGen_visited_mono _ (fun n stc outc hc => ih n stc outc hc) _ _ _ h)

theorem freshEntryCount_append (c : Coordinates) (l : List (Coordinates × Bool))
    (a : Coordinates) (b : Bool) :
    freshEntryCount c (l ++ [(a, b)]) =
      freshEntryCount c l + (if a = c ∧ b = false then 1 else 0) := by
  by_cases h : a = c <;> cases b <;> simp [freshEntryCount, List.filter_append, h]

theorem dfsChildrenGen_fresh (dest : Coordinates)
    (step : Coordinates → DfsState → Option (List Coordinates × DfsState))
    (hstep : ∀ n st out, step n st = some out → FreshInv dest st → FreshInv dest out.2) :
    ∀ (l : List Coordinates) (st : DfsState) out,
      dfsChildrenGen step l st = some out → FreshInv dest st → FreshInv dest out.2 := by
  intro l
  induction l with
  | nil =>
    intro st out h hinv
    simp only [dfsChildrenGen] at h
    cases h
    exact hinv
  | cons n rest ih =>
    intro st out h hinv
    simp only [dfsChildrenGen] at h
    cases hstep_eq : step n st with
    | none => rw [hstep_eq] at h; cases h
    | some r =>
      obtain ⟨path, st2⟩ := r
      rw [hstep_eq] at h
      simp only at h
      by_cases hp : path.isEmpty
      · rw [if_pos hp] at h
        exact ih st2 out h (hstep n st _ hstep_eq hinv)
      · rw [if_neg hp] at h
        cases h
        exact hstep n st _ hstep_eq hinv

theorem dfsAux_fresh (valid : Coordinates → Bool) (flag : Bool)
    (sortN : List Coordinates → List Coordinates) (dest : Coordinates) :
    ∀ (fuel : ℕ) (src : Coordinates) (st : DfsState) out,
      dfsAux valid flag sortN dest fuel src st = some out →
      FreshInv dest st → FreshInv dest out.2 := by
  intro fuel
  induction fuel with
  | zero => intro src st out h; simp [dfsAux] at h
  | succ fuel ih =>
    intro src st out h hinv
    simp only [dfsAux] at h
    by_cases hsd : src = dest
    · rw [if_pos hsd] at h
      cases h
      intro c hc
      simp only [freshEntryCount_append]
      have hcs : ¬(src = c ∧ decide (src ∈ st.visited) = false) := by
        rintro ⟨rfl, -⟩
        exact hc hsd
      rw [if_neg hcs, add_zero]
      exact hinv c hc
    · rw [if_neg hsd] at h
      have hst2 : FreshInv dest
          { st with navigated := st.navigated ++ [src]
                    entries := st.entries ++ [(src, decide (src ∈ st.visited))]
                    visited := insert src st.visited } := by
        intro c hc
        simp only [freshEntryCount_append]
        by_cases hcsrc : src = c
        · subst hcsrc
          by_cases hv : src ∈ st.visited
          · have : ¬(src = src ∧ decide (src ∈ st.visited) = false) := by
              simp [hv]
            rw [if_neg this, add_zero]
            have := hinv src hc
            simp only [if_pos hv] at this
            simp [Finset.mem_insert, this]
          · have : (src = src ∧ decide (src ∈ st.visited) = false) := by
              simp [hv]
            rw [if_pos this]
            have := hinv src hc
            simp only [if_neg hv] at this
            simp only [Finset.mem_insert, true_or, if_pos]
            omega
        · have : ¬(src = c ∧ decide (src ∈ st.visited) = false) := by
            rintro ⟨rfl, -⟩
            exact hcsrc rfl
          rw [if_neg this, add_zero]
          have hb := hinv c hc
          by_cases hcv : c ∈ st.visited
          · simp only [if_pos hcv] at hb
            have : c ∈ insert src st.visited := Finset.mem_insert_of_mem hcv
            simpa [this] using hb
          · simp only [if_neg hcv] at hb
            split <;> omega
      exact dfsChildrenGen_fresh dest _ (fun n stc outc hcc hic => ih n stc outc hcc hic)
        _ _ _ h hst2

theorem dfsAux_isSome (valid : Coordinates → Bool) (flag : Bool)
    (sortN : List Coordinates → List Coordinates) (dest : Coordinates)
    (S : Finset Coordinates)
    (hS : ∀ c, valid c = true → c ∈ S)
    (hsort : ∀ (l : List Coordinates) (x : Coordinates), x ∈ sortN l → x ∈ l) :
    ∀ (fuel : ℕ) (src : Coordinates) (st : DfsState),
      dfsMeasure S dest src st.visited < fuel →
      (dfsAux valid flag sortN dest fuel src st).isSome := by
  intro fuel
  induction fuel using Nat.strong_induction_on with
  | _ fuel ihf =>
    intro src st hmu
    cases fuel with
    | zero => exact absurd hmu (Nat.not_lt_zero _)
    | succ fuel =>
      simp only [dfsAux]
      by_cases hsd : src = dest
      · rw [if_pos hsd]
        simp
      · rw [if_neg hsd]
        have hfuel : 2 * (S \ insert src st.visited).card + 1 ≤ fuel := by
          have hμeq : dfsMeasure S dest src st.visited =
              2 * (S \ insert src st.visited).card +
                (if src ∈ st.visited then 1 else 2) := by
            simp [dfsMeasure, hsd]
          rw [hμeq] at hmu
          have h12 : (1 : ℕ) ≤ if src ∈ st.visited then 1 else 2 := by
            split <;> omega
          omega
        have hchild : ∀ (l : List Coordinates),
            (∀ x ∈ l, valid x = true ∧ x ∉ insert src st.visited) →
            ∀ (stc : DfsState), insert src st.visited ⊆ stc.visited →
            (dfsChildrenGen (dfsAux valid flag sortN dest fuel) l stc).isSome := by
          intro l
          induction l with
          | nil =>
            intro _ stc _
            simp [dfsChildrenGen]
          | cons n rest ihl =>
            intro hmem stc hsub
            obtain ⟨hnval, hnV0⟩ := hmem n (List.mem_cons_self n rest)
            have hnS : n ∈ S := hS n hnval
            have hmun : dfsMeasure S dest n stc.visited < fuel := by
              by_cases hnd : n = dest
              · have : dfsMeasure S dest n stc.visited = 0 := by
                  simp [dfsMeasure, hnd]
                omega
              · have hmemdiff : n ∈ S \ insert src st.visited :=
                  Finset.mem_sdiff.mpr ⟨hnS, hnV0⟩
                have hsub2 : S \ insert n stc.visited ⊆
                    (S \ insert src st.visited).erase n := by
                  intro z hz
                  rw [Finset.mem_sdiff, Finset.mem_insert] at hz
                  refine Finset.mem_erase.mpr
                    ⟨fun hzn => hz.2 (Or.inl hzn),
                      Finset.mem_sdiff.mpr ⟨hz.1, fun hzV0 => hz.2 (Or.inr (hsub hzV0))⟩⟩
                have hpos : 0 < (S \ insert src st.visited).card :=
                  Finset.card_pos.mpr ⟨n, hmemdiff⟩
                have hcard : (S \ insert n stc.visited).card + 1 ≤
                    (S \ insert src st.visited).card := by
                  have h1 := Finset.card_le_card hsub2
                  rw [Finset.card_erase_of_mem hmemdiff] at h1
                  omega
                have hμeq : dfsMeasure S dest n stc.visited =
                    2 * (S \ insert n stc.visited).card +
                      (if n ∈ stc.visited then 1 else 2) := by
                  simp [dfsMeasure, hnd]
                rw [hμeq]
                by_cases hnv : n ∈ stc.visited
                · rw [if_pos hnv]
                  omega
                · rw [if_neg hnv]
                  omega
            have hn_isSome := ihf fuel (Nat.lt_succ_self fuel) n stc hmun
            obtain ⟨⟨path, st2⟩, heq⟩ := Option.isSome_iff_exists.mp hn_isSome
            simp only [dfsChildrenGen, heq]
            by_cases hp : path.isEmpty
            · rw [if_pos hp]
              exact ihl (fun x hx => hmem x (List.mem_cons_of_mem n hx)) st2
                (hsub.trans (dfsAux_visited_mono valid flag sortN dest fuel n stc _ heq))
            · rw [if_neg hp]
              simp
        apply hchild
        · intro x hx
          have hxf := hsort _ x hx
          rw [List.mem_filter] at hxf
          have hxcond := hxf.2
          rw [Bool.and_eq_true, decide_eq_true_eq] at hxcond
          exact ⟨hxcond.1, hxcond.2⟩
        · exact Finset.Subset.refl _

theorem length_rowMajorCells (W H : ℕ) : (rowMajorCells W H).length = H * W := by
  rw [rowMajorCells, List.length_flatMap]
  have heq : (List.map (List.length ∘ fun (y : ℕ) => List.map
      (fun (x : ℕ) => ({ x := (x : ℤ), y := (y : ℤ) } : Coordinates)) (List.range W))
      (List.range H)) = List.map (fun _ => W) (List.range H) := by
    simp [Function.comp_def]
  rw [heq]
  induction H with
  | zero => simp
  | succ n ih =>
    rw [List.range_succ, List.map_append, List.sum_append]
    simp [ih, Nat.succ_mul]

theorem validCellsFinset_card_le (valid : Coordinates → Bool) (W H : ℕ) :
    (validCellsFinset valid W H).card ≤ W * H := by
  calc (validCellsFinset valid W H).card
      ≤ ((rowMajorCells W H).filter (fun c => valid c)).length :=
        List.toFinset_card_le _
    _ ≤ (rowMajorCells W H).length := List.length_filter_le _ _
    _ = H * W := length_rowMajorCells W H
    _ = W * H := Nat.mul_comm H W

theorem mem_validCellsFinset (a : Area) (c : Coordinates)
    (h : a.isValidAgentPosition c = true) :
    c ∈ validCellsFinset (fun z => a.isValidAgentPosition z) a.width a.height := by
  rw [validCellsFinset, List.mem_toFinset, List.mem_filter]
  refine ⟨?_, h⟩
  rw [mem_rowMajorCells]
  exact isValid_inBounds a c h

theorem dfsMeasure_le (S : Finset Coordinates) (dest src : Coordinates)
    (V : Finset Coordinates) : dfsMeasure S dest src V ≤ 2 * S.card + 2 := by
  rw [dfsMeasure]
  split
  · omega
  · have h1 : (S \ insert src V).card ≤ S.card :=
      Finset.card_le_card (Finset.sdiff_subset)
    have h2 : (if src ∈ V then 1 else 2) ≤ 2 := by split <;> omega
    omega

/-- Counterexample for C4.  First part: on the open 2 by 2 grid with source
(0,0) and destination (1,0), the ghost entry trace of the full recursion
tree is (0,0), (1,0), (0,1), (1,1), (1,0) — the destination cell (1,0) is
entered twice, because the first frame on it returns before anything is
marked and the search later reaches it again through (1,1).  Second part:
the recursion depth is not bounded by W times H: on the 1 by 1 grid with
the out-of-grid source (-1,0), fuel W times H = 1 is exhausted (the
recursion nests two frames). -/
theorem claim_C4_counterexample :
    ((dfsAux (fun c => (openArea 2 2).isValidAgentPosition c) false id ⟨1, 0⟩
        (dfsFuel (openArea 2 2)) ⟨0, 0⟩ ⟨∅, [], []⟩).map (fun r => r.2.entries.map Prod.fst) =
      some [⟨0, 0⟩, ⟨1, 0⟩, ⟨0, 1⟩, ⟨1, 1⟩, ⟨1, 0⟩] ∧
      ¬ ([⟨0, 0⟩, ⟨1, 0⟩, ⟨0, 1⟩, ⟨1, 1⟩, ⟨1, 0⟩] : List Coordinates).Nodup) ∧
    dfsAux (fun c => (openArea 1 1).isValidAgentPosition c) false id ⟨9, 9⟩
      (1 * 1) ⟨-1, 0⟩ ⟨∅, [], []⟩ = none := by
  refine ⟨⟨by decide, by decide⟩, by decide⟩

/-- Claim C4, amended: in one invocation of findDepthFirstPath (including
via findDepthFirstPathDirectionally), the visited-set only ever grows, and
every coordinate other than the destination is entered while unvisited at
most once — but coordinates already in the visited set, and the
destination (which is never marked visited), can be re-entered, so a
coordinate can appear twice in the recursion tree.  The recursion depth is
bounded by 2 W H + 3 (the fuel the wrappers allot, which the third
conjunct shows is never exhausted); the claimed W H bound itself can be
exceeded. -/
theorem claim_C4 :
    (∀ (valid : Coordinates → Bool) (flag : Bool)
        (sortN : List Coordinates → List Coordinates) (dest : Coordinates)
        (fuel : ℕ) (src : Coordinates) (st : DfsState) out,
      dfsAux valid flag sortN dest fuel src st = some out →
      st.visited ⊆ out.2.visited) ∧
    (∀ (valid : Coordinates → Bool) (flag : Bool)
        (sortN : List Coordinates → List Coordinates) (dest : Coordinates)
        (fuel : ℕ) (src : Coordinates) (st : DfsState) out,
      dfsAux valid flag sortN dest fuel src st = some out →
      FreshInv dest st → FreshInv dest out.2) ∧
    (∀ (a : Area) (sortN : List Coordinates → List Coordinates),
      (∀ (l : List Coordinates) (x : Coordinates), x ∈ sortN l → x ∈ l) →
      ∀ (src dest : Coordinates) (st : DfsState),
        (dfsAux (fun c => a.isValidAgentPosition c) a.allowDiagonalsInPaths sortN dest
          (dfsFuel a) src st).isSome) := by
  refine ⟨?_, ?_, ?_⟩
  · intro valid flag sortN dest fuel src st out h
    exact dfsAux_visited_mono valid flag sortN dest fuel src st out h
  · intro valid flag sortN dest fuel src st out h hinv
    exact dfsAux_fresh valid flag sortN dest fuel src st out h hinv
  · intro a sortN hsort src dest st
    apply dfsAux_isSome _ _ _ _
      (validCellsFinset (fun z => a.isValidAgentPosition z) a.width a.height)
      (fun c hc => mem_validCellsFinset a c hc) hsort
    have h1 := dfsMeasure_le
      (validCellsFinset (fun z => a.isValidAgentPosition z) a.width a.height)
      dest src st.visited
    have h2 := validCellsFinset_card_le (fun z => a.isValidAgentPosition z) a.width a.height
    rw [dfsFuel]
    have h3 : 2 * a.width * a.height = 2 * (a.width * a.height) := by ring
    omega

/-- Witness for the amended C4, at the concrete 2 by 2 run of the
counterexample: its returned state extends the empty visited set, its
entry trace satisfies the once-unvisited property, and the wrapper fuel
suffices for that invocation. -/
theorem claim_C4_witness :
    ((∅ : Finset Coordinates) ⊆ ({⟨1, 1⟩, ⟨0, 1⟩, ⟨0, 0⟩} : Finset Coordinates)) ∧
    FreshInv ⟨1, 0⟩
      ⟨{⟨1, 1⟩, ⟨0, 1⟩, ⟨0, 0⟩}, [⟨1, 1⟩],
        [(⟨0, 0⟩, false), (⟨1, 0⟩, false), (⟨0, 1⟩, false), (⟨1, 1⟩, false), (⟨1, 0⟩, false)]⟩ ∧
    (dfsAux (fun c => (openArea 2 2).isValidAgentPosition c) false id ⟨1, 0⟩
      (dfsFuel (openArea 2 2)) ⟨0, 0⟩ ⟨∅, [], []⟩).isSome := by
  have hrun : dfsAux (fun c => (openArea 2 2).isValidAgentPosition c) false id ⟨1, 0⟩
      (dfsFuel (openArea 2 2)) ⟨0, 0⟩ ⟨∅, [], []⟩ =
      some ([⟨1, 1⟩],
        ⟨{⟨1, 1⟩, ⟨0, 1⟩, ⟨0, 0⟩}, [⟨1, 1⟩],
          [(⟨0, 0⟩, false), (⟨1, 0⟩, false), (⟨0, 1⟩, false), (⟨1, 1⟩, false),
            (⟨1, 0⟩, false)]⟩) := by decide
  have hempty : FreshInv ⟨1, 0⟩ (⟨∅, [], []⟩ : DfsState) := by
    intro c hc
    simp [freshEntryCount]
  refine ⟨claim_C4.1 _ _ _ _ _ _ _ _ hrun, claim_C4.2.1 _ _ _ _ _ _ _ _ hrun hempty, ?_⟩
  exact claim_C4.2.2 (openArea 2 2) id (fun l x hx => hx) ⟨0, 0⟩ ⟨1, 0⟩ ⟨∅, [], []⟩

theorem getNeighbours_ne (c n : Coordinates) (flag : Bool)
    (h : n ∈ c.getNeighbours flag) : n ≠ c := by
  obtain ⟨x, y⟩ := c
  cases flag <;> simp [Coordinates.getNeighbours] at h <;>
    rcases h with rfl | rfl | rfl | rfl | rfl | rfl | rfl | rfl <;>
    (intro he; rw [Coordinates.mk.injEq] at he; omega)

section DijkstraLemmas

variable {α : Type} [LinearOrderedCommRing α]

theorem updateDistance_inv (getHeuristic : Coordinates → α)
    (hh : ∀ n, 0 ≤ getHeuristic n) (flag : Bool) (source : Coordinates)
    (valid : Coordinates → Bool) (current n : Coordinates)
    (hn : n ∈ current.getNeighbours flag)
    (dp : (Coordinates → Option (WithTop α)) × (Coordinates → Option Coordinates))
    (hInv : DijkstraInv flag source valid dp.1 dp.2) :
    DijkstraInv flag source valid (updateDistance getHeuristic current n dp).1
      (updateDistance getHeuristic current n dp).2 := by
  obtain ⟨h0, hnonneg, hdom, hprev, hfin⟩ := hInv
  rw [updateDistance]
  cases hdcur : dp.1 current with
  | none => exact ⟨h0, hnonneg, hdom, hprev, hfin⟩
  | some dcur =>
    cases hdn : dp.1 n with
    | none => exact ⟨h0, hnonneg, hdom, hprev, hfin⟩
    | some dn =>
      simp only
      by_cases hlt : dcur + 1 + (getHeuristic n : WithTop α) < dn
      · rw [if_pos hlt]
        have hdcur_ne_top : dcur ≠ ⊤ := by
          intro htop
          rw [htop, WithTop.top_add, WithTop.top_add] at hlt
          exact not_top_lt hlt
        obtain ⟨r, rfl⟩ := WithTop.ne_top_iff_exists.mp hdcur_ne_top
        have hr0 : (0 : α) ≤ r := by
          have := hnonneg current (↑r) hdcur
          exact_mod_cast this
        have hcand : (↑r : WithTop α) + 1 + (getHeuristic n : WithTop α) =
            ((r + 1 + getHeuristic n : α) : WithTop α) := by
          push_cast
          ring_nf
        have hcand_pos : (0 : WithTop α) <
            (↑r : WithTop α) + 1 + (getHeuristic n : WithTop α) := by
          rw [hcand]
          exact_mod_cast by linarith [hh n, hr0]
        have hn_ne_source : n ≠ source := by
          intro hns
          rw [hns, h0] at hdn
          cases hdn
          exact absurd (hcand_pos.trans hlt) (lt_irrefl _)
        have hn_ne_current : n ≠ current := getNeighbours_ne current n flag hn
        refine ⟨?_, ?_, ?_, ?_, ?_⟩
        · simp only [updOpt]
          rw [if_neg (fun hsn => hn_ne_source hsn.symm)]
          exact h0
        · intro c v hc
          simp only [updOpt] at hc
          by_cases hcn : c = n
          · rw [if_pos hcn] at hc
            cases hc
            rw [hcand]
            exact_mod_cast by linarith [hh n, hr0]
          · rw [if_neg hcn] at hc
            exact hnonneg c v hc
        · intro c v hc
          simp only [updOpt] at hc
          by_cases hcn : c = n
          · subst hcn
            exact hdom c dn hdn
          · rw [if_neg hcn] at hc
            exact hdom c v hc
        · intro c p hp
          simp only [updOpt] at hp
          by_cases hcn : c = n
          · subst hcn
            rw [if_pos rfl] at hp
            cases hp
            have hvalid : valid c = true := by
              rcases hdom c dn hdn with hcs | hv
              · exact absurd hcs hn_ne_source
              · exact hv
            refine ⟨hvalid, hn_ne_source, hn, ↑r + 1 + (getHeuristic c : WithTop α), ↑r,
              ?_, ?_, ?_⟩
            · simp [updOpt]
            · simp only [updOpt]
              rw [if_neg (fun hpc => hn_ne_current hpc.symm)]
              exact hdcur
            · rw [hcand]
              exact_mod_cast by linarith [hh c, hr0]
          · rw [if_neg hcn] at hp
            obtain ⟨hv, hcs, hadj, dc, dpv, hdc, hdp, hlt2⟩ := hprev c p hp
            refine ⟨hv, hcs, hadj, dc, ?_⟩
            by_cases hpn : p = n
            · subst hpn
              rw [hdn] at hdp
              cases hdp
              refine ⟨↑r + 1 + (getHeuristic p : WithTop α), ?_, ?_, hlt.trans hlt2⟩
              · simp only [updOpt]
                rw [if_neg hcn]
                exact hdc
              · simp [updOpt]
            · refine ⟨dpv, ?_, ?_, hlt2⟩
              · simp only [updOpt]
                rw [if_neg hcn]
                exact hdc
              · simp only [updOpt]
                rw [if_neg hpn]
                exact hdp
        · intro c v hc hvt hcs
          simp only [updOpt] at hc ⊢
          by_cases hcn : c = n
          · rw [if_pos hcn]
            simp
          · rw [if_neg hcn] at hc ⊢
            exact hfin c v hc hvt hcs
      · rw [if_neg hlt]
        exact ⟨h0, hnonneg, hdom, hprev, hfin⟩

theorem relaxAll_inv (getHeuristic : Coordinates → α)
    (hh : ∀ n, 0 ≤ getHeuristic n) (flag : Bool) (source : Coordinates)
    (valid : Coordinates → Bool) (current : Coordinates) :
    ∀ (l : List Coordinates), (∀ n ∈ l, n ∈ current.getNeighbours flag) →
    ∀ dp, DijkstraInv flag source valid dp.1 dp.2 →
    DijkstraInv flag source valid (relaxAll getHeuristic current l dp).1
      (relaxAll getHeuristic current l dp).2 := by
  intro l
  induction l with
  | nil =>
    intro _ dp h
    simpa [relaxAll] using h
  | cons n rest ih =>
    intro hmem dp hInv
    have hstep := updateDistance_inv getHeuristic hh flag source valid current n
      (hmem n (List.mem_cons_self n rest)) dp hInv
    have := ih (fun x hx => hmem x (List.mem_cons_of_mem n hx))
      (updateDistance getHeuristic current n dp) hstep
    simpa [relaxAll] using this

theorem ltOpt_true_iff (x y : Option (WithTop α)) :
    ltOpt x y = true ↔ ∃ a b, x = some a ∧ y = some b ∧ a < b := by
  cases x with
  | none => simp [ltOpt]
  | some a =>
    cases y with
    | none => simp [ltOpt]
    | some b => simp [ltOpt]

theorem prev_source_none (flag : Bool) (source : Coordinates) (valid : Coordinates → Bool)
    (dist : Coordinates → Option (WithTop α)) (prev : Coordinates → Option Coordinates)
    (hInv : DijkstraInv flag source valid dist prev) : prev source = none := by
  cases hps : prev source with
  | none => rfl
  | some q => exact absurd rfl (hInv.2.2.2.1 source q hps).2.1

theorem selectMin_foldl_mem (dist : Coordinates → Option (WithTop α)) :
    ∀ (rest : List Coordinates) (acc : Coordinates),
      rest.foldl (fun best n => if ltOpt (dist n) (dist best) then n else best) acc ∈
        acc :: rest := by
  intro rest
  induction rest with
  | nil => intro acc; simp
  | cons m rest ih =>
    intro acc
    rw [List.foldl_cons]
    by_cases hm : ltOpt (dist m) (dist acc) = true
    · rw [if_pos hm]
      have := ih m
      rcases List.mem_cons.mp this with h | h
      · rw [h]
        simp
      · simp [h]
    · rw [if_neg (by simpa using hm)]
      have := ih acc
      rcases List.mem_cons.mp this with h | h
      · rw [h]
        simp
      · simp [h]

theorem selectMin_mem (dist : Coordinates → Option (WithTop α)) (l : List Coordinates)
    (h : l ≠ []) : selectMin dist l ∈ l := by
  cases l with
  | nil => exact absurd rfl h
  | cons c rest =>
    rw [selectMin]
    exact selectMin_foldl_mem dist rest c

theorem selectMin_eq_head (dist : Coordinates → Option (WithTop α)) :
    ∀ (rest : List Coordinates) (c : Coordinates),
      (∀ x ∈ rest, ltOpt (dist x) (dist c) = false) →
      selectMin dist (c :: rest) = c := by
  intro rest
  induction rest with
  | nil => intro c _; rfl
  | cons m rest ih =>
    intro c hrest
    have hm := hrest m (List.mem_cons_self m rest)
    rw [selectMin, List.foldl_cons, if_neg (by simp [hm])]
    exact ih c (fun x hx => hrest x (List.mem_cons_of_mem m hx))

theorem reconstructWalk_source (prev : Coordinates → Option Coordinates)
    (source : Coordinates) (hps : prev source = none) :
    ∀ fuel, reconstructWalk prev fuel source = [] := by
  intro fuel
  cases fuel with
  | zero => rfl
  | succ fuel =>
    rw [reconstructWalk, hps]

theorem reconstructWalk_prevChain (flag : Bool) (source : Coordinates)
    (valid : Coordinates → Bool) (dist : Coordinates → Option (WithTop α))
    (prev : Coordinates → Option Coordinates)
    (hInv : DijkstraInv flag source valid dist prev)
    (T : Finset Coordinates) (hT : ∀ c, valid c = true → c ∈ T) :
    ∀ (fuel : ℕ) (p : Coordinates) (dpv : α),
      dist p = some ((dpv : α) : WithTop α) →
      (T.filter (fun z => ltOpt (dist z) (dist p) = true)).card < fuel →
      PrevChain prev source p (reconstructWalk prev fuel p) := by
  intro fuel
  induction fuel using Nat.strong_induction_on with
  | _ fuel ihf =>
    intro p dpv hdp hcard
    cases fuel with
    | zero => exact absurd hcard (Nat.not_lt_zero _)
    | succ fuel =>
      by_cases hps : p = source
      · subst hps
        rw [reconstructWalk_source prev p (prev_source_none flag p valid dist prev hInv)]
        exact PrevChain.base
      · have hprevp : prev p ≠ none :=
          hInv.2.2.2.2 p _ hdp (by simp) hps
        cases hpq : prev p with
        | none => exact absurd hpq hprevp
        | some q =>
          have hwalk : reconstructWalk prev (fuel + 1) p =
              p :: reconstructWalk prev fuel q := by
            simp [reconstructWalk, hpq]
          rw [hwalk]
          obtain ⟨hvp, -, -, dc, dq, hdc, hdq, hlt⟩ := hInv.2.2.2.1 p q hpq
          rw [hdp] at hdc
          cases hdc
          have hdq_ne_top : dq ≠ ⊤ := by
            intro htop
            rw [htop] at hlt
            exact not_top_lt hlt
          obtain ⟨dqv, rfl⟩ := WithTop.ne_top_iff_exists.mp hdq_ne_top
          by_cases hqs : q = source
          · subst hqs
            rw [reconstructWalk_source prev q (prev_source_none flag q valid dist prev hInv)]
            exact PrevChain.step p q [] hpq PrevChain.base
          · -- q is a valid cell (it has a predecessor of its own), so it counts in T
            have hprevq : prev q ≠ none :=
              hInv.2.2.2.2 q _ hdq (by simp) hqs
            cases hqr : prev q with
            | none => exact absurd hqr hprevq
            | some r =>
              have hvq : valid q = true := (hInv.2.2.2.1 q r hqr).1
              have hqT : q ∈ T := hT q hvq
              have hqmem : q ∈ T.filter (fun z => ltOpt (dist z) (dist p) = true) := by
                rw [Finset.mem_filter]
                exact ⟨hqT, (ltOpt_true_iff _ _).mpr ⟨↑dqv, ↑dpv, hdq, hdp, hlt⟩⟩
              have hsubset : T.filter (fun z => ltOpt (dist z) (dist q) = true) ⊆
                  (T.filter (fun z => ltOpt (dist z) (dist p) = true)).erase q := by
                intro z hz
                rw [Finset.mem_filter] at hz
                obtain ⟨hzT, hzlt⟩ := hz
                obtain ⟨a, b, hza, hqb, hab⟩ := (ltOpt_true_iff _ _).mp hzlt
                rw [hdq] at hqb
                cases hqb
                rw [Finset.mem_erase, Finset.mem_filter]
                refine ⟨?_, hzT, ?_⟩
                · intro hzq
                  rw [hzq, hdq] at hza
                  cases hza
                  exact absurd hab (lt_irrefl _)
                · exact (ltOpt_true_iff _ _).mpr ⟨a, ↑dpv, hza, hdp, hab.trans hlt⟩
              have hcardq : (T.filter (fun z => ltOpt (dist z) (dist q) = true)).card < fuel := by
                have h1 := Finset.card_le_card hsubset
                rw [Finset.card_erase_of_mem hqmem] at h1
                have h2 : 0 < (T.filter (fun z => ltOpt (dist z) (dist p) = true)).card :=
                  Finset.card_pos.mpr ⟨q, hqmem⟩
                omega
              exact PrevChain.step p q _ hpq (ihf fuel (Nat.lt_succ_self fuel) q dqv hdq hcardq)

theorem prevChain_valid (prev : Coordinates → Option Coordinates) (source : Coordinates)
    (flag : Bool) (valid : Coordinates → Bool) (dist : Coordinates → Option (WithTop α))
    (hInv : DijkstraInv flag source valid dist prev) :
    ∀ (p : Coordinates) (l : List Coordinates), PrevChain prev source p l →
      ∀ x ∈ l, valid x = true ∧ x ≠ source := by
  intro p l hchain
  induction hchain with
  | base => intro x hx; cases hx
  | step p q l hpq hrest ih =>
    intro x hx
    rcases List.mem_cons.mp hx with rfl | hx2
    · obtain ⟨hv, hns, -⟩ := hInv.2.2.2.1 x q hpq
      exact ⟨hv, hns⟩
    · exact ih x hx2

theorem prevChain_shape (prev : Coordinates → Option Coordinates) (source : Coordinates) :
    ∀ (p : Coordinates) (l : List Coordinates), PrevChain prev source p l →
      (l = [] ∧ p = source) ∨ ∃ l2, l = p :: l2 := by
  intro p l hchain
  cases hchain with
  | base => exact Or.inl ⟨rfl, rfl⟩
  | step p q l2 hpq hrest => exact Or.inr ⟨l2, rfl⟩

theorem prevChain_adjacency (prev : Coordinates → Option Coordinates) (source : Coordinates)
    (flag : Bool) (valid : Coordinates → Bool) (dist : Coordinates → Option (WithTop α))
    (hInv : DijkstraInv flag source valid dist prev) :
    ∀ (p : Coordinates) (l : List Coordinates), PrevChain prev source p l →
      List.Chain' (fun a b => a ∈ b.getNeighbours flag) (l ++ [source]) := by
  intro p l hchain
  induction hchain with
  | base => simp
  | step p q l hpq hrest ih =>
    have hadj : p ∈ q.getNeighbours flag := (hInv.2.2.2.1 p q hpq).2.2.1
    rcases prevChain_shape prev source q l hrest with ⟨rfl, rfl⟩ | ⟨l2, rfl⟩
    · simpa using hadj
    · exact List.Chain'.cons hadj ih

theorem prevChain_dist_le (prev : Coordinates → Option Coordinates) (source : Coordinates)
    (flag : Bool) (valid : Coordinates → Bool) (dist : Coordinates → Option (WithTop α))
    (hInv : DijkstraInv flag source valid dist prev) :
    ∀ (p : Coordinates) (l : List Coordinates), PrevChain prev source p l →
      ∀ dv, dist p = some dv → ∀ x ∈ l, ∃ vx, dist x = some vx ∧ vx ≤ dv := by
  intro p l hchain
  induction hchain with
  | base => intro dv _ x hx; cases hx
  | step p q l hpq hrest ih =>
    intro dv hdv x hx
    obtain ⟨-, -, -, dc, dq, hdc, hdq, hlt⟩ := hInv.2.2.2.1 p q hpq
    rw [hdv] at hdc
    cases hdc
    rcases List.mem_cons.mp hx with rfl | hx2
    · exact ⟨dv, hdv, le_refl _⟩
    · obtain ⟨vx, hvx, hle⟩ := ih dq hdq x hx2
      exact ⟨vx, hvx, hle.trans hlt.le⟩

theorem dijkstraLoop_spec (flag : Bool) (dest : Coordinates) (getHeuristic : Coordinates → α)
    (hh : ∀ n, 0 ≤ getHeuristic n) (source : Coordinates) (valid : Coordinates → Bool)
    (T : Finset Coordinates) (hT : ∀ c, valid c = true → c ∈ T)
    (reconFuel : ℕ) (hrf : T.card < reconFuel) :
    ∀ (fuel : ℕ) (U : List Coordinates) (dist : Coordinates → Option (WithTop α))
      (prev : Coordinates → Option Coordinates),
      DijkstraInv flag source valid dist prev →
      (∀ x ∈ dijkstraLoop flag dest getHeuristic reconFuel fuel U dist prev,
        valid x = true ∧ x ≠ source) ∧
      (dijkstraLoop flag dest getHeuristic reconFuel fuel U dist prev ≠ [] →
        List.Chain' (fun u v => u ∈ v.getNeighbours flag)
          (dest :: dijkstraLoop flag dest getHeuristic reconFuel fuel U dist prev ++
            [source]) ∧
        dest ∉ dijkstraLoop flag dest getHeuristic reconFuel fuel U dist prev) := by
  intro fuel
  induction fuel with
  | zero =>
    intro U dist prev _
    simp [dijkstraLoop]
  | succ fuel ih =>
    intro U dist prev hInv
    simp only [dijkstraLoop]
    by_cases hU : U.isEmpty
    · rw [if_pos hU]
      simp
    · rw [if_neg hU]
      by_cases hcd : selectMin dist U = dest
      · rw [if_pos hcd]
        cases hpd : prev dest with
        | none =>
          rw [reconstructPath, hpd]
          simp
        | some pd =>
          have hrp : reconstructPath prev reconFuel dest = reconstructWalk prev reconFuel pd := by
            rw [reconstructPath, hpd]
          rw [hrp]
          obtain ⟨hvdest, hdns, hdadj, dc, dpv, hdc, hdpv, hlt⟩ := hInv.2.2.2.1 dest pd hpd
          have hdpv_ne_top : dpv ≠ ⊤ := by
            intro htop
            rw [htop] at hlt
            exact not_top_lt hlt
          obtain ⟨dq, rfl⟩ := WithTop.ne_top_iff_exists.mp hdpv_ne_top
          have hcardlt : (T.filter (fun z => ltOpt (dist z) (dist pd) = true)).card <
              reconFuel := by
            have h1 : (T.filter (fun z => ltOpt (dist z) (dist pd) = true)).card ≤ T.card :=
              Finset.card_le_card (Finset.filter_subset _ _)
            omega
          have hchain := reconstructWalk_prevChain flag source valid dist prev hInv T hT
            reconFuel pd dq hdpv hcardlt
          refine ⟨?_, fun hne => ⟨?_, ?_⟩⟩
          · intro x hx
            exact prevChain_valid prev source flag valid dist hInv pd _ hchain x hx
          · rcases prevChain_shape prev source pd _ hchain with ⟨hempty, -⟩ | ⟨l2, hl2⟩
            · exact absurd hempty hne
            · rw [hl2]
              have hadj := prevChain_adjacency prev source flag valid dist hInv pd _ hchain
              rw [hl2] at hadj
              exact List.Chain'.cons hdadj hadj
          · intro hdmem
            obtain ⟨vx, hvx, hle⟩ := prevChain_dist_le prev source flag valid dist hInv
              pd _ hchain ↑dq hdpv dest hdmem
            rw [hdc] at hvx
            cases hvx
            exact absurd (lt_of_le_of_lt hle hlt) (lt_irrefl _)
      · rw [if_neg hcd]
        exact ih _ _ _ (relaxAll_inv getHeuristic hh flag source valid _ _
          (fun n hn => hn) (dist, prev) hInv)

theorem dijkstraInit_inv (flag : Bool) (source : Coordinates) (valid : Coordinates → Bool) :
    DijkstraInv (α := α) flag source valid
      (fun c => if c = source then some (0 : WithTop α)
        else if valid c then some ⊤ else none)
      (fun _ => none) := by
  refine ⟨by simp, ?_, ?_, ?_, ?_⟩
  · intro c v hc
    simp only [] at hc
    split_ifs at hc with h1 h2
    · cases hc
      exact le_refl _
    · cases hc
      exact le_top
  · intro c v hc
    simp only [] at hc
    split_ifs at hc with h1 h2
    · exact Or.inl h1
    · exact Or.inr h2
  · intro c p hp
    simp at hp
  · intro c v hc hvt hcs
    simp only [] at hc
    simp only []
    split_ifs at hc with h1 h2
    · exact absurd h1 hcs
    · cases hc
      exact absurd rfl hvt

theorem findDijkstraPath_spec (a : Area) (source destination : Coordinates)
    (getHeuristic : Coordinates → α) (hh : ∀ n, 0 ≤ getHeuristic n) :
    (∀ x ∈ a.findDijkstraPath source destination getHeuristic,
      a.isValidAgentPosition x = true ∧ x ≠ source) ∧
    (a.findDijkstraPath source destination getHeuristic ≠ [] →
      List.Chain' (fun u v => u ∈ v.getNeighbours a.allowDiagonalsInPaths)
        (destination :: a.findDijkstraPath source destination getHeuristic ++ [source]) ∧
      destination ∉ a.findDijkstraPath source destination getHeuristic) := by
  have hInit := dijkstraInit_inv (α := α) a.allowDiagonalsInPaths source
    (fun c => a.isValidAgentPosition c)
  have hspec := dijkstraLoop_spec a.allowDiagonalsInPaths destination getHeuristic hh
    source (fun c => a.isValidAgentPosition c)
    (validCellsFinset (fun c => a.isValidAgentPosition c) a.width a.height)
    (fun c hc => mem_validCellsFinset a c hc)
    (a.width * a.height + 1)
    (by
      have := validCellsFinset_card_le (fun c => a.isValidAgentPosition c) a.width a.height
      omega)
    (source :: (rowMajorCells a.width a.height).filter
      (fun c => a.isValidAgentPosition c && c != source)).length
    (source :: (rowMajorCells a.width a.height).filter
      (fun c => a.isValidAgentPosition c && c != source))
    (fun c => if c = source then some (0 : WithTop α)
      else if a.isValidAgentPosition c then some ⊤ else none)
    (fun _ => none) hInit
  simpa only [Area.findDijkstraPath] using hspec

theorem updateDistance_other (getHeuristic : Coordinates → α) (current n c : Coordinates)
    (hc : c ≠ n)
    (dp : (Coordinates → Option (WithTop α)) × (Coordinates → Option Coordinates)) :
    (updateDistance getHeuristic current n dp).1 c = dp.1 c ∧
    (updateDistance getHeuristic current n dp).2 c = dp.2 c := by
  rw [updateDistance]
  cases dp.1 current with
  | none => exact ⟨rfl, rfl⟩
  | some dcur =>
    cases dp.1 n with
    | none => exact ⟨rfl, rfl⟩
    | some dn =>
      simp only
      split
      · constructor <;> (simp only [updOpt]; rw [if_neg hc])
      · exact ⟨rfl, rfl⟩

theorem updateDistance_lock (getHeuristic : Coordinates → α)
    (hh : ∀ n, 0 ≤ getHeuristic n) (flag : Bool) (source : Coordinates)
    (valid : Coordinates → Bool) (current n dest : Coordinates)
    (dp : (Coordinates → Option (WithTop α)) × (Coordinates → Option Coordinates))
    (hInv : DijkstraInv flag source valid dp.1 dp.2)
    (hd1 : dp.1 dest = some 1) (hps : dp.2 dest = some source) :
    (updateDistance getHeuristic current n dp).1 dest = some 1 ∧
    (updateDistance getHeuristic current n dp).2 dest = some source := by
  by_cases hnd : n = dest
  · subst hnd
    rw [updateDistance]
    cases hdcur : dp.1 current with
    | none => exact ⟨hd1, hps⟩
    | some dcur =>
      cases hdn : dp.1 n with
      | none => exact ⟨hd1, hps⟩
      | some dn =>
        simp only
        rw [hd1] at hdn
        cases hdn
        have hnolt : ¬(dcur + 1 + (getHeuristic n : WithTop α) < 1) := by
          intro hlt
          have hd0 : (0 : WithTop α) ≤ dcur := hInv.2.1 current dcur hdcur
          have hh0 : (0 : WithTop α) ≤ (getHeuristic n : WithTop α) := by
            exact_mod_cast hh n
          have : (1 : WithTop α) ≤ dcur + 1 + (getHeuristic n : WithTop α) := by
            calc (1 : WithTop α) = 0 + 1 + 0 := by simp
            _ ≤ dcur + 1 + (getHeuristic n : WithTop α) := by
                gcongr
          exact absurd (lt_of_le_of_lt this hlt) (lt_irrefl _)
        rw [if_neg hnolt]
        exact ⟨hd1, hps⟩
  · obtain ⟨h1, h2⟩ := updateDistance_other getHeuristic current n dest
      (fun hdn => hnd hdn.symm) dp
    rw [h1, h2]
    exact ⟨hd1, hps⟩

theorem relaxAll_lock (getHeuristic : Coordinates → α)
    (hh : ∀ n, 0 ≤ getHeuristic n) (flag : Bool) (source : Coordinates)
    (valid : Coordinates → Bool) (current dest : Coordinates) :
    ∀ (l : List Coordinates), (∀ n ∈ l, n ∈ current.getNeighbours flag) →
    ∀ dp, DijkstraInv flag source valid dp.1 dp.2 →
      dp.1 dest = some 1 → dp.2 dest = some source →
      DijkstraInv flag source valid (relaxAll getHeuristic current l dp).1
        (relaxAll getHeuristic current l dp).2 ∧
      (relaxAll getHeuristic current l dp).1 dest = some 1 ∧
      (relaxAll getHeuristic current l dp).2 dest = some source := by
  intro l
  induction l with
  | nil =>
    intro _ dp hInv h1 h2
    exact ⟨by simpa [relaxAll] using hInv, by simpa [relaxAll] using h1,
      by simpa [relaxAll] using h2⟩
  | cons n rest ih =>
    intro hmem dp hInv h1 h2
    have hInv2 := updateDistance_inv getHeuristic hh flag source valid current n
      (hmem n (List.mem_cons_self n rest)) dp hInv
    obtain ⟨h1a, h2a⟩ := updateDistance_lock getHeuristic hh flag source valid current n
      dest dp hInv h1 h2
    have hres := ih (fun x hx => hmem x (List.mem_cons_of_mem n hx))
      (updateDistance getHeuristic current n dp) hInv2 h1a h2a
    simpa [relaxAll] using hres

theorem updateDistance_relax_top (getHeuristic : Coordinates → α) (current n : Coordinates)
    (dp : (Coordinates → Option (WithTop α)) × (Coordinates → Option Coordinates))
    (hcur : dp.1 current = some 0) (hn : dp.1 n = some ⊤) (hh0 : getHeuristic n = 0) :
    (updateDistance getHeuristic current n dp).1 n = some 1 ∧
    (updateDistance getHeuristic current n dp).2 n = some current := by
  rw [updateDistance, hcur, hn]
  simp only [hh0]
  have hlt : (0 : WithTop α) + 1 + ((0 : α) : WithTop α) < ⊤ := by
    rw [WithTop.coe_zero, add_zero, zero_add]
    rw [show (1 : WithTop α) = ((1 : α) : WithTop α) from rfl]
    exact WithTop.coe_lt_top 1
  rw [if_pos hlt]
  constructor
  · simp [updOpt]
  · simp [updOpt]

theorem relaxAll_from_source (getHeuristic : Coordinates → α)
    (hh : ∀ n, 0 ≤ getHeuristic n) (flag : Bool) (source dest : Coordinates)
    (valid : Coordinates → Bool) (hdh : getHeuristic dest = 0) :
    ∀ (l : List Coordinates), (∀ n ∈ l, n ∈ source.getNeighbours flag) →
    ∀ dp, DijkstraInv (α := α) flag source valid dp.1 dp.2 →
      ((dp.1 dest = some ⊤ ∧ dest ∈ l) ∨
        (dp.1 dest = some 1 ∧ dp.2 dest = some source)) →
      (relaxAll getHeuristic source l dp).1 dest = some 1 ∧
      (relaxAll getHeuristic source l dp).2 dest = some source := by
  intro l
  induction l with
  | nil =>
    intro _ dp _ hdisj
    rcases hdisj with ⟨_, hmem⟩ | ⟨h1, h2⟩
    · exact absurd hmem (List.not_mem_nil dest)
    · exact ⟨by simpa [relaxAll] using h1, by simpa [relaxAll] using h2⟩
  | cons n rest ih =>
    intro hmem dp hInv hdisj
    have hInv2 := updateDistance_inv getHeuristic hh flag source valid source n
      (hmem n (List.mem_cons_self n rest)) dp hInv
    have hdisj2 :
        ((updateDistance getHeuristic source n dp).1 dest = some ⊤ ∧ dest ∈ rest) ∨
        ((updateDistance getHeuristic source n dp).1 dest = some 1 ∧
          (updateDistance getHeuristic source n dp).2 dest = some source) := by
      rcases hdisj with ⟨htop, hmemd⟩ | ⟨h1, h2⟩
      · by_cases hnd : n = dest
        · subst hnd
          exact Or.inr (updateDistance_relax_top getHeuristic source n dp hInv.1 htop hdh)
        · left
          obtain ⟨e1, e2⟩ := updateDistance_other getHeuristic source n dest
            (fun h => hnd h.symm) dp
          refine ⟨by rw [e1]; exact htop, ?_⟩
          rcases List.mem_cons.mp hmemd with h | h
          · exact absurd h.symm hnd
          · exact h
      · exact Or.inr (updateDistance_lock getHeuristic hh flag source valid source n dest
          dp hInv h1 h2)
    have hres := ih (fun x hx => hmem x (List.mem_cons_of_mem n hx))
      (updateDistance getHeuristic source n dp) hInv2 hdisj2
    exact ⟨by simpa [relaxAll] using hres.1, by simpa [relaxAll] using hres.2⟩

theorem dijkstraLoop_lock (flag : Bool) (dest : Coordinates) (getHeuristic : Coordinates → α)
    (hh : ∀ n, 0 ≤ getHeuristic n) (source : Coordinates) (valid : Coordinates → Bool)
    (reconFuel : ℕ) :
    ∀ (fuel : ℕ) (U : List Coordinates) (dist : Coordinates → Option (WithTop α))
      (prev : Coordinates → Option Coordinates),
      DijkstraInv flag source valid dist prev →
      dist dest = some 1 → prev dest = some source →
      dijkstraLoop flag dest getHeuristic reconFuel fuel U dist prev = [] := by
  intro fuel
  induction fuel with
  | zero => intro U dist prev _ _ _; rfl
  | succ fuel ih =>
    intro U dist prev hInv h1 h2
    simp only [dijkstraLoop]
    by_cases hU : U.isEmpty
    · rw [if_pos hU]
    · rw [if_neg hU]
      by_cases hcd : selectMin dist U = dest
      · rw [if_pos hcd]
        rw [reconstructPath, h2]
        exact reconstructWalk_source prev source
          (prev_source_none flag source valid dist prev hInv) reconFuel
      · rw [if_neg hcd]
        obtain ⟨hInv2, h1a, h2a⟩ := relaxAll_lock getHeuristic hh flag source valid
          (selectMin dist U) dest (Coordinates.getNeighbours (selectMin dist U) flag)
          (fun n hn => hn) (dist, prev) hInv h1 h2
        exact ih _ _ _ hInv2 h1a h2a

end DijkstraLemmas

/-- Claim C2: for every Area state and every source and destination, every
coordinate in the path returned by findDijkstraPath (with its default
constant-zero heuristic) satisfies isValidAgentPosition at the time of the
search: it is in bounds and not a wall, so no returned path ever passes
through a wall cell. -/
theorem claim_C2 :
    ∀ (a : Area) (source destination : Coordinates) (c : Coordinates),
      c ∈ a.findDijkstraPath source destination (fun _ => (0 : ℤ)) →
      a.isValidAgentPosition c = true := by
  intro a source destination c hc
  exact ((findDijkstraPath_spec a source destination (fun _ => (0 : ℤ))
    (fun _ => le_refl 0)).1 c hc).1

/-- Witness for C2 on the open 3 by 1 corridor: the returned path from
(0,0) to (2,0) is [(1,0)], and that cell is a valid agent position. -/
theorem claim_C2_witness :
    Area.isValidAgentPosition (openArea 3 1) ⟨1, 0⟩ = true :=
  claim_C2 (openArea 3 1) ⟨0, 0⟩ ⟨2, 0⟩ ⟨1, 0⟩ (by decide)

/-- Claim C1: for every Area and valid source and destination, when
findDijkstraPath (default heuristic) returns a route, the returned
intermediate cells run from the destination side back to the source side:
prepending the destination and appending the source yields a chain in
which each cell is a grid neighbour of the next, so index 0 of the result
is adjacent to the destination and the last entry is adjacent to the
source; both endpoints themselves are excluded from the result. -/
theorem claim_C1 :
    ∀ (a : Area) (source destination : Coordinates),
      a.isValidAgentPosition source = true →
      a.isValidAgentPosition destination = true →
      a.findDijkstraPath source destination (fun _ => (0 : ℤ)) ≠ [] →
      List.Chain' (fun u v => u ∈ v.getNeighbours a.allowDiagonalsInPaths)
        (destination :: a.findDijkstraPath source destination (fun _ => (0 : ℤ)) ++
          [source]) ∧
      source ∉ a.findDijkstraPath source destination (fun _ => (0 : ℤ)) ∧
      destination ∉ a.findDijkstraPath source destination (fun _ => (0 : ℤ)) := by
  intro a source destination hvs hvd hne
  have hspec := findDijkstraPath_spec a source destination (fun _ => (0 : ℤ))
    (fun _ => le_refl 0)
  obtain ⟨hchain, hdnotmem⟩ := hspec.2 hne
  exact ⟨hchain, fun hs => (hspec.1 source hs).2 rfl, hdnotmem⟩

/-- Witness for C1 on the open 3 by 1 corridor from (0,0) to (2,0), whose
path is the single cell (1,0): the chain (2,0), (1,0), (0,0) is neighbour
linked and neither endpoint occurs in the path. -/
theorem claim_C1_witness :
    List.Chain' (fun u v => u ∈ v.getNeighbours (openArea 3 1).allowDiagonalsInPaths)
      ((⟨2, 0⟩ : Coordinates) ::
        (openArea 3 1).findDijkstraPath ⟨0, 0⟩ ⟨2, 0⟩ (fun _ => (0 : ℤ)) ++ [⟨0, 0⟩]) ∧
    (⟨0, 0⟩ : Coordinates) ∉ (openArea 3 1).findDijkstraPath ⟨0, 0⟩ ⟨2, 0⟩
      (fun _ => (0 : ℤ)) ∧
    (⟨2, 0⟩ : Coordinates) ∉ (openArea 3 1).findDijkstraPath ⟨0, 0⟩ ⟨2, 0⟩
      (fun _ => (0 : ℤ)) :=
  claim_C1 (openArea 3 1) ⟨0, 0⟩ ⟨2, 0⟩ (by decide) (by decide) (by decide)


/-- Claim C9: for every Area and every valid source and destination that
are either equal or grid adjacent, findDijkstraPath (default constant-zero
heuristic) returns the empty path, the very value that signifies that no
route exists: reconstruction starts at the predecessor of the destination
and stops before the source, so a zero-step or one-step route has no
intermediate cells at all. -/
theorem claim_C9 :
    ∀ (a : Area) (source destination : Coordinates),
      a.isValidAgentPosition source = true →
      a.isValidAgentPosition destination = true →
      (source = destination ∨
        destination ∈ source.getNeighbours a.allowDiagonalsInPaths) →
      a.findDijkstraPath source destination (fun _ => (0 : ℤ)) = [] := by
  intro a source destination hvs hvd hadj
  have hsel : selectMin
      (fun c => if c = source then some (0 : WithTop ℤ)
        else if a.isValidAgentPosition c then some ⊤ else none)
      (source :: (rowMajorCells a.width a.height).filter
        (fun c => a.isValidAgentPosition c && c != source)) = source := by
    apply selectMin_eq_head
    intro x hx
    rw [List.mem_filter] at hx
    obtain ⟨-, hpred⟩ := hx
    simp only [Bool.and_eq_true, bne_iff_ne] at hpred
    obtain ⟨hvx, hxs⟩ := hpred
    show ltOpt
      (if x = source then some (0 : WithTop ℤ)
        else if a.isValidAgentPosition x then some ⊤ else none)
      (if source = source then some (0 : WithTop ℤ)
        else if a.isValidAgentPosition source then some ⊤ else none) = false
    rw [if_neg hxs, if_pos hvx, if_pos rfl]
    decide
  simp only [Area.findDijkstraPath, List.length_cons]
  simp only [dijkstraLoop]
  rw [if_neg (by simp :
    ¬((source :: (rowMajorCells a.width a.height).filter
      (fun c => a.isValidAgentPosition c && c != source)).isEmpty = true))]
  rw [hsel, List.erase_cons_head]
  by_cases hsd : source = destination
  · rw [if_pos hsd]
    rfl
  · rw [if_neg hsd]
    have hd_mem : destination ∈ source.getNeighbours a.allowDiagonalsInPaths :=
      hadj.resolve_left hsd
    have hInit := dijkstraInit_inv (α := ℤ) a.allowDiagonalsInPaths source
      (fun c => a.isValidAgentPosition c)
    have hInv2 := relaxAll_inv (fun _ => (0 : ℤ)) (fun _ => le_refl 0)
      a.allowDiagonalsInPaths source (fun c => a.isValidAgentPosition c) source
      (source.getNeighbours a.allowDiagonalsInPaths) (fun n hn => hn)
      (⟨fun c => if c = source then some (0 : WithTop ℤ)
          else if a.isValidAgentPosition c then some ⊤ else none, fun _ => none⟩)
      hInit
    have hlock := relaxAll_from_source (fun _ => (0 : ℤ)) (fun _ => le_refl 0)
      a.allowDiagonalsInPaths source destination (fun c => a.isValidAgentPosition c) rfl
      (source.getNeighbours a.allowDiagonalsInPaths) (fun n hn => hn)
      (⟨fun c => if c = source then some (0 : WithTop ℤ)
          else if a.isValidAgentPosition c then some ⊤ else none, fun _ => none⟩)
      hInit
      (Or.inl ⟨by
        show (if destination = source then some (0 : WithTop ℤ)
          else if a.isValidAgentPosition destination then some ⊤ else none) = some ⊤
        rw [if_neg (fun h => hsd h.symm), if_pos hvd], hd_mem⟩)
    exact dijkstraLoop_lock a.allowDiagonalsInPaths destination (fun _ => (0 : ℤ))
      (fun _ => le_refl 0) source (fun c => a.isValidAgentPosition c)
      (a.width * a.height + 1) _ _ _ _ hInv2 hlock.1 hlock.2

/-- Witness for C9 on the open 5 by 5 grid: the adjacent pair (1,1), (1,2)
and the equal pair (2,2), (2,2) both yield the empty path. -/
theorem claim_C9_witness :
    (openArea 5 5).findDijkstraPath ⟨1, 1⟩ ⟨1, 2⟩ (fun _ => (0 : ℤ)) = [] ∧
    (openArea 5 5).findDijkstraPath ⟨2, 2⟩ ⟨2, 2⟩ (fun _ => (0 : ℤ)) = [] :=
  ⟨claim_C9 (openArea 5 5) ⟨1, 1⟩ ⟨1, 2⟩ (by decide) (by decide) (Or.inr (by decide)),
   claim_C9 (openArea 5 5) ⟨2, 2⟩ ⟨2, 2⟩ (by decide) (by decide) (Or.inl rfl)⟩

/-- The concrete Dijkstra scenario of the spec, settled by evaluation: on
the open 5 by 5 grid from (0,0) to (4,4) with the default constant-zero
heuristic, the returned path has exactly 7 intermediate cells, one fewer
than the Manhattan distance of 8.  The analogous universal statement, and
its counterpart for findAStarPath with the real-valued Euclidean
heuristic, are left open here. -/
theorem dijkstra_open_5x5_scenario :
    ((openArea 5 5).findDijkstraPath ⟨0, 0⟩ ⟨4, 4⟩ (fun _ => (0 : ℤ))).length = 7 ∧
    manhattanDist ⟨0, 0⟩ ⟨4, 4⟩ = 8 := by
  decide
